import Mathlib

/-!
Verification of the propforge library (src/props.ts, src/template.ts,
src/utils/validation.ts) against its natural-language specification.

The TypeScript source is shallowly embedded: JavaScript runtime values are the
inductive `JValue`; each exported operation (`getProp`, `setProp`, `hasProp`,
`removeProp`, the template engine) is a Lean function mirroring the source
line by line.  The library is compiled by plain `tsc` to strict-mode module
code, so the embedding models strict-mode semantics: assigning a property to
`null`/`undefined` or to a primitive throws a `TypeError`, and the `in`
operator throws on a non-object operand.

Modelling notes (standard idealisations, called out where they matter):
* JavaScript numbers are modelled as integers; every numeric literal that the
  claims exercise is an integer.
* Prototype-chain members (e.g. `toString` on a number) are not modelled:
  member reads only see own properties.  The denylisted segments
  (`__proto__`, `constructor`, ...) are rejected before resolution anyway.
* A JavaScript array is a sequence of elements plus the non-index string
  properties it may carry (`arr.x = 1` is legal JS).  A canonical numeric
  string beyond the current length always reads as `undefined` in JS (an
  array cannot own a non-index property with a canonical index name), and
  `length` reads as the element count; both are modelled.  Assigning a
  non-number to `length` is modelled as a failure (JS would coerce numeric
  strings; no claim exercises that).
* String primitives support character indexing and `length` in JS; reads of
  other keys give `undefined`.
-/

namespace PropForge

/-- A JavaScript runtime value as traversed by propforge. `arr` carries the
ordered elements and the non-index string properties of the array object. -/
inductive JValue where
  | undef
  | null
  | bool (b : Bool)
  | num (n : Int)
  | str (s : String)
  | obj (fields : List (String × JValue))
  | arr (elems : List JValue) (props : List (String × JValue))
deriving Repr

mutual

/-- Structural equality test on `JValue` (deriving cannot handle the nested
inductive, so it is written out). -/
def beqJV : JValue → JValue → Bool
  | .undef, .undef => true
  | .null, .null => true
  | .bool a, .bool b => a == b
  | .num a, .num b => a == b
  | .str a, .str b => a == b
  | .obj f1, .obj f2 => beqFields f1 f2
  | .arr e1 p1, .arr e2 p2 => beqList e1 e2 && beqFields p1 p2
  | _, _ => false

/-- Elementwise equality of element lists. -/
def beqList : List JValue → List JValue → Bool
  | [], [] => true
  | a :: as, b :: bs => beqJV a b && beqList as bs
  | _, _ => false

/-- Elementwise equality of key/value lists. -/
def beqFields : List (String × JValue) → List (String × JValue) → Bool
  | [], [] => true
  | (k1, v1) :: t1, (k2, v2) :: t2 => k1 == k2 && beqJV v1 v2 && beqFields t1 t2
  | _, _ => false

end

mutual

/-- `beqJV` decides equality (proof term used by the `DecidableEq`
instance below). -/
def beqJV_iff : ∀ a b : JValue, beqJV a b = true ↔ a = b
  | .undef, b => by cases b <;> simp [beqJV]
  | .null, b => by cases b <;> simp [beqJV]
  | .bool a, b => by cases b <;> simp [beqJV]
  | .num a, b => by cases b <;> simp [beqJV]
  | .str a, b => by cases b <;> simp [beqJV]
  | .obj f1, b => by
      cases b <;> simp [beqJV, beqFields_iff f1 _]
  | .arr e1 p1, b => by
      cases b <;> simp [beqJV, beqList_iff e1 _, beqFields_iff p1 _]

/-- `beqList` decides equality. -/
def beqList_iff : ∀ a b : List JValue, beqList a b = true ↔ a = b
  | [], b => by cases b <;> simp [beqList]
  | a :: as, b => by
      cases b <;> simp [beqList, beqJV_iff a _, beqList_iff as _]

/-- `beqFields` decides equality. -/
def beqFields_iff : ∀ a b : List (String × JValue), beqFields a b = true ↔ a = b
  | [], b => by cases b <;> simp [beqFields]
  | (k1, v1) :: t1, b => by
      cases b with
      | nil => simp [beqFields]
      | cons hd tl =>
          obtain ⟨k2, v2⟩ := hd
          simp [beqFields, beqJV_iff v1 v2, beqFields_iff t1 tl]

end

instance : DecidableEq JValue := fun a b =>
  decidable_of_iff (beqJV a b = true) (beqJV_iff a b)

/-- The error kinds raised by the library (thrown `Error`s in the source),
plus `typeError` for exceptions the JavaScript runtime itself raises during
an operation (strict mode). -/
inductive PfError where
  | nullOrUndefined
  | invalidPath
  | securityViolation (term : String)
  | typeError (msg : String)
  | emptyPath
  | invalidTemplateData
  | transformNameRequired
  | transformFailure (msg : String)
deriving Repr, DecidableEq

/-! ### String helpers mirroring the JavaScript string operations used -/

/-- The whitespace characters relevant to `trim`/`parseInt` for the inputs
the library sees. -/
def jsIsWs (c : Char) : Bool :=
  c = ' ' || c = '\t' || c = '\n' || c = '\r'

/-- `String.prototype.split` with a single-character separator, on char
lists: splitting the empty string yields `[[]]`, adjacent separators yield
empty segments. -/
def splitChar (sep : Char) : List Char → List (List Char)
  | [] => [[]]
  | c :: cs =>
    match splitChar sep cs with
    | [] => [[c]]
    | h :: t => if c = sep then [] :: h :: t else (c :: h) :: t

/-- `path.split(sep)` for a one-character separator. -/
def jsSplit (sep : Char) (s : String) : List String :=
  (splitChar sep s.data).map fun l => ⟨l⟩

/-- `String.prototype.trim`. -/
def jsTrim (s : String) : String :=
  ⟨((s.data.dropWhile jsIsWs).reverse.dropWhile jsIsWs).reverse⟩

/-- Digit run to number. -/
def charsToNat (l : List Char) : Nat :=
  l.foldl (fun a c => a * 10 + (c.toNat - 48)) 0

/-- `s` is the canonical string form of an array index (`"0"`, `"17"`, no
leading zeros). Such keys address array elements; all other keys are plain
properties. (The 2^32-2 JS bound is not modelled; no claim approaches it.) -/
def canonIndex (s : String) : Option Nat :=
  if s.data ≠ [] ∧ s.data.all (·.isDigit) ∧ toString (charsToNat s.data) = s then
    some (charsToNat s.data)
  else none

/-- `Number.parseInt(s, 10)`: skip leading whitespace, optional sign, then a
leading digit run; `none` models `NaN`. -/
def parseIntJS (s : String) : Option Int :=
  let t := s.data.dropWhile jsIsWs
  let (sign, rest) : Int × List Char :=
    match t with
    | '-' :: r => (-1, r)
    | '+' :: r => (1, r)
    | r => (1, r)
  let digits := rest.takeWhile (·.isDigit)
  if digits.isEmpty then none else some (sign * (charsToNat digits : Nat))

/-- `Number(s)` restricted to the integer literals the template grammar
uses: `some 0` for a blank string (a JS quirk), otherwise an optionally
signed all-digit string; `none` models `NaN`.  (Float, hex and exponent
literals are not modelled; no claim uses them.) -/
def jsNumberOpt (s : String) : Option Int :=
  let t := (s.data.dropWhile jsIsWs).reverse.dropWhile jsIsWs |>.reverse
  match t with
  | [] => some 0
  | '-' :: r => if r ≠ [] ∧ r.all (·.isDigit) then some (-(charsToNat r : Int)) else none
  | '+' :: r => if r ≠ [] ∧ r.all (·.isDigit) then some (charsToNat r) else none
  | r => if r.all (·.isDigit) then some (charsToNat r) else none

/-! ### Member primitives (JavaScript object-model operations, strict mode) -/

namespace JValue

/-- `v` is `null` or `undefined`. -/
def isNullish : JValue → Bool
  | .null => true
  | .undef => true
  | _ => false

/-- `v` is `undefined`. -/
def isUndef : JValue → Bool
  | .undef => true
  | _ => false

end JValue

/-- First-match association-list lookup (JS object keys are unique, so this
is plain key lookup); a missing key reads as `undefined`. -/
def lookupField : List (String × JValue) → String → JValue
  | [], _ => .undef
  | f :: rest, k => if f.1 = k then f.2 else lookupField rest k

/-- Replace the value at key `k`, or append the binding (JS property
assignment on an object). -/
def setField (fields : List (String × JValue)) (k : String) (v : JValue) :
    List (String × JValue) :=
  match fields with
  | [] => [(k, v)]
  | f :: rest => if f.1 = k then (k, v) :: rest else f :: setField rest k v

/-- `l[i] = v` on a JS array: in-range assignment replaces, out-of-range
assignment pads the intermediate positions with holes (which read back as
`undefined`). -/
def listSetPad (l : List JValue) (i : Nat) (v : JValue) : List JValue :=
  if i < l.length then l.set i v
  else l ++ List.replicate (i - l.length) .undef ++ [v]

/-- `arr.length = n`: truncate or pad with holes. -/
def listResize (l : List JValue) (n : Nat) : List JValue :=
  if n ≤ l.length then l.take n
  else l ++ List.replicate (n - l.length) (.undef)

/-- Element read with the `undefined` default (array holes and
out-of-range indices read as `undefined`). -/
def getIdx (l : List JValue) (i : Nat) : JValue :=
  l.getD i (.undef)

/-- The value of `current[part]` for a non-`null`/`undefined` `current`
(property reads never throw in JS).  Own properties only: canonical index
strings address array elements (beyond the length they are `undefined` — an
array cannot own a non-index property under a canonical index name),
`length` is the element count, strings expose characters and `length`, and
any property read on another primitive is `undefined`. -/
def getMemberPure : JValue → String → JValue
  | .obj fields, k => lookupField fields k
  | .arr elems props, k =>
    match canonIndex k with
    | some i => getIdx elems i
    | none => if k = "length" then .num elems.length else lookupField props k
  | .str s, k =>
    (match canonIndex k with
     | some i =>
       match s.data.get? i with
       | some c => .str ⟨[c]⟩
       | none => .undef
     | none => if k = "length" then .num s.length else .undef)
  | _, _ => (.undef)

/-- `part in current`: key membership on objects and arrays, a `TypeError`
on any other operand (including primitives — strict and sloppy mode alike). -/
def hasMember : JValue → String → Except PfError Bool
  | .obj fields, k => .ok (fields.any (fun f => f.1 = k))
  | .arr elems props, k =>
    .ok (match canonIndex k with
         | some i => i < elems.length
         | none => k = "length" || props.any (fun f => f.1 = k))
  | _, _ => .error (.typeError "in operator on non-object")

/-- `current[k] = v` in strict mode: objects and arrays accept the write
(array index writes pad, `length` writes resize — only a number is accepted,
JS coercion of other values is not modelled and no claim exercises it);
writing to `null`/`undefined` or a primitive throws a `TypeError`. -/
def setMember : JValue → String → JValue → Except PfError JValue
  | .obj fields, k, v => .ok (.obj (setField fields k v))
  | .arr elems props, k, v =>
    (match canonIndex k with
     | some i => .ok (.arr (listSetPad elems i v) props)
     | none =>
       if k = "length" then
         match v with
         | .num n => if 0 ≤ n then .ok (.arr (listResize elems n.toNat) props)
                     else .error (.typeError "invalid array length")
         | _ => .error (.typeError "invalid array length")
       else .ok (.arr elems (setField props k v)))
  | _, _, _ => .error (.typeError "assignment to primitive or null")

/-- `splice(idx, 1)`: a negative index counts from the end (clamped at 0);
an index at or beyond the length removes nothing. -/
def spliceOne (elems : List JValue) (idx : Int) : List JValue :=
  let i : Nat := if idx < 0 then (elems.length + idx).toNat else idx.toNat
  elems.take i ++ elems.drop (i + 1)

/-- `delete current[k]` in strict mode, for the non-array `current` reached
by `removeProp`: deletes an object key; deleting an own index or `length` of
a string throws (non-configurable), all other primitive cases are no-ops;
`null`/`undefined` operands throw. -/
def deleteMember : JValue → String → Except PfError JValue
  | .obj fields, k => .ok (.obj (fields.filter (fun f => f.1 ≠ k)))
  | .str s, k =>
    (match canonIndex k with
     | some i =>
       if i < s.length then .error (.typeError "delete of non-configurable string index")
       else .ok (.str s)
     | none =>
       if k = "length" then .error (.typeError "delete of non-configurable string length")
       else .ok (.str s))
  | .num n, _ => .ok (.num n)
  | .bool b, _ => .ok (.bool b)
  | .arr elems props, _ => .ok (.arr elems props)
  | _, _ => .error (.typeError "delete on null or undefined")

/-! ### Security guard and input validation (src/utils/validation.ts) -/

/-- The reserved identifiers of `SecurityValidation`. -/
def securityTerms : List String :=
  ["__proto__", "constructor", "prototype", "get", "set", "defineProperty"]

/-- `validateSecurityTerms(path)`: fail on the first dot-separated segment
that exactly equals a reserved identifier. -/
def validateSecurityTerms (path : String) : Except PfError Unit :=
  match (jsSplit '.' path).find? (fun part => securityTerms.contains part) with
  | some part => .error (.securityViolation part)
  | none => .ok ()

/-- `validateInput(obj, path)`: `null`/`undefined` object, then empty or
whitespace-only path, then the security guard.  (The non-string-path branch
is unrepresentable here since paths are strings.) -/
def validateInput (obj : JValue) (path : String) : Except PfError Unit :=
  if obj.isNullish then .error .nullOrUndefined
  else if jsTrim path = "" then .error .invalidPath
  else validateSecurityTerms path

/-! ### The props module (src/props.ts) -/

/-- The module-level `globalConfig`: a fallback value and per-operation
suffix-keyed transformers (`Object.entries` iteration order is the list
order). -/
structure PropsConfig where
  fallback : JValue
  getTransformers : List (String × (JValue → JValue))
  setTransformers : List (String × (JValue → JValue))
  hasTransformers : List (String × (JValue → JValue))
  removeTransformers : List (String × (JValue → JValue))

/-- The default configuration (`globalConfig = {}`). -/
def dcfg : PropsConfig := ⟨.undef, [], [], [], []⟩

/-- `applyTransformers`: fold every transformer whose key is a suffix of the
path over the value, in registration order. -/
def applyTransformersFn (ts : List (String × (JValue → JValue))) (path : String)
    (v : JValue) : JValue :=
  ts.foldl (fun acc nt => if nt.1.data.isSuffixOf path.data then nt.2 acc else acc) v

/-- The traversal loop of `getProp`: `none` when an intermediate value is
`null`/`undefined` (the fallback branch), otherwise the final value. -/
def getPartsRaw : JValue → List String → Option JValue
  | c, [] => some c
  | c, p :: rest =>
    if c.isNullish then none else getPartsRaw (getMemberPure c p) rest

/-- `getProp(obj, path, defaultValue)`.  The fallback is
`defaultValue ?? globalConfig.fallback` (nullish coalescing). -/
def getProp (cfg : PropsConfig) (obj : JValue) (path : String)
    (defaultValue : JValue) : Except PfError JValue :=
  match validateInput obj path with
  | .error e => .error e
  | .ok _ =>
    match validateSecurityTerms path with
    | .error e => .error e
    | .ok _ =>
      let fb := if defaultValue.isNullish then cfg.fallback else defaultValue
      match getPartsRaw obj (jsSplit '.' path) with
      | none => .ok fb
      | some v =>
        if v.isUndef then .ok fb
        else .ok (applyTransformersFn cfg.getTransformers path v)

/-- The write loop of `setProp` on split segments: descend, creating `{}`
wherever `current[part] === undefined`, then assign at the last segment.
The in-place JS mutation is modelled by rebuilding the spine; the error
cases coincide with the strict-mode exceptions of the source loop. -/
def setParts : JValue → List String → JValue → Except PfError JValue
  | _, [], v => .ok v
  | c, [last], v => setMember c last v
  | c, p :: rest, v =>
    if c.isNullish then .error (.typeError "read of null or undefined")
    else
      match setParts (if (getMemberPure c p).isUndef then .obj []
        else getMemberPure c p) rest v with
      | .error e => .error e
      | .ok sub => setMember c p sub

/-- `setProp(obj, path, value)`. -/
def setProp (cfg : PropsConfig) (obj : JValue) (path : String) (value : JValue) :
    Except PfError JValue :=
  match validateInput obj path with
  | .error e => .error e
  | .ok _ =>
    match validateSecurityTerms path with
    | .error e => .error e
    | .ok _ =>
      setParts obj (jsSplit '.' path) (applyTransformersFn cfg.setTransformers path value)

/-- The traversal loop of `hasProp`: `false` once `current` is nullish or a
segment is not `in` it; the `in` operator throws on primitives. -/
def hasParts : JValue → List String → Except PfError Bool
  | _, [] => .ok true
  | c, p :: rest =>
    if c.isNullish then .ok false
    else
      match hasMember c p with
      | .error e => .error e
      | .ok b => if b then hasParts (getMemberPure c p) rest else .ok false

/-- `hasProp(obj, path)` (the source registers `hasProp` transformers but
never applies them). -/
def hasProp (cfg : PropsConfig) (obj : JValue) (path : String) :
    Except PfError Bool :=
  match validateInput obj path with
  | .error e => .error e
  | .ok _ =>
    match validateSecurityTerms path with
    | .error e => .error e
    | .ok _ => hasParts obj (jsSplit '.' path)

/-- Re-attach a modified child while unwinding `removeProp` (the source
mutates the child in place through the reference read from its parent; for
a primitive "parent" the descent operated on a copied value, so the parent
is unchanged). -/
def stitchMember (c : JValue) (k : String) (child : JValue) : JValue :=
  match c with
  | .obj fields => .obj (setField fields k child)
  | .arr elems props =>
    (match canonIndex k with
     | some i => .arr (if i < elems.length then elems.set i child else elems) props
     | none => if k = "length" then .arr elems props
               else .arr elems (setField props k child))
  | other => other

/-- The loop of `removeProp` on split segments. `ok none` models the early
`return obj` branches (nothing was mutated); `ok (some c')` is the mutated
subtree. -/
def removeParts : JValue → List String → Except PfError (Option JValue)
  | _, [] => .ok none
  | c, [last] =>
    if c.isNullish then .ok none
    else match c with
      | .arr elems props =>
        .ok (some (match parseIntJS last with
                   | some idx => .arr (spliceOne elems idx) props
                   | none => .arr elems props))
      | other =>
        match deleteMember other last with
        | .error e => .error e
        | .ok d => .ok (some d)
  | c, p :: rest =>
    if c.isNullish then .ok none
    else if (getMemberPure c p).isUndef then .ok none
    else
      match removeParts (getMemberPure c p) rest with
      | .error e => .error e
      | .ok none => .ok none
      | .ok (some child') => .ok (some (stitchMember c p child'))

/-- `removeProp(obj, path)`: a nullish object is returned unchanged before
any validation; then validation, the `removeProp` transformers applied to
the object itself (with a transformer configured the source traverses the
transformed object yet returns the original reference — the claims all use
an empty transformer configuration, where the two coincide), then the
traversal/delete loop. -/
def removeProp (cfg : PropsConfig) (obj : JValue) (path : String) :
    Except PfError JValue :=
  if obj.isNullish then .ok obj
  else
    match validateInput obj path with
    | .error e => .error e
    | .ok _ =>
      match validateSecurityTerms path with
      | .error e => .error e
      | .ok _ =>
        match removeParts (applyTransformersFn cfg.removeTransformers path obj)
            (jsSplit '.' path) with
        | .error e => .error e
        | .ok none => .ok obj
        | .ok (some c') => .ok c'

/-- The parent container that the `removeProp` loop reaches for the final
segment: `none` when the loop early-returns (nullish value or missing
intermediate), `some` of the traversal value otherwise. -/
def removeParentVal : JValue → List String → Option JValue
  | c, [] => some c
  | c, [_] => if c.isNullish then none else some c
  | c, p :: rest =>
    if c.isNullish then none
    else if (getMemberPure c p).isUndef then none
    else removeParentVal (getMemberPure c p) rest

/-- The final-segment parent reached by `removeProp` is not a sequence
(for a sequence parent, `splice` removes the element at the parsed index
again on a repeated call). -/
def notArrParent (c : JValue) (parts : List String) : Bool :=
  match removeParentVal c parts with
  | some (.arr _ _) => false
  | _ => true

/-- Object or array (the JS values whose members can be read, written,
tested with `in` and deleted without a `TypeError`). -/
def isContainerB : JValue → Bool
  | .obj _ => true
  | .arr _ _ => true
  | _ => false

/-- Every value visited on the way to (and including the parent of) the
final segment is a mapping or a sequence, except that a member may be
`undefined` (absent), after which nothing more is required: the shape of
"merely missing data" on which all four path operations are safe. -/
def goodWalkB : JValue → List String → Bool
  | c, [] => isContainerB c
  | c, [_] => isContainerB c
  | c, p :: rest =>
    isContainerB c &&
      ((getMemberPure c p).isUndef || goodWalkB (getMemberPure c p) rest)

/-- The resolution of a path up to the fallback rule of `getProp`: `none`
when the traversal hits a nullish intermediate or the final value is
`undefined` (both produce the fallback), otherwise the defined value. -/
def getOptQ (c : JValue) (parts : List String) : Option JValue :=
  match getPartsRaw c parts with
  | none => none
  | some v => if v.isUndef then none else some v

/-! ### The template engine (src/template.ts) -/

mutual

/-- `String(value)` for the values the engine can produce.  Arrays stringify
as their comma-joined elements with `null`/`undefined` elements blank;
plain objects as `"[object Object]"`. -/
def jsToString : JValue → String
  | .undef => "undefined"
  | .null => "null"
  | .bool true => "true"
  | .bool false => "false"
  | .num n => toString n
  | .str s => s
  | .obj _ => "[object Object]"
  | .arr elems _ => jsToStringList elems

/-- Comma-joined stringification of array elements. -/
def jsToStringList : List JValue → String
  | [] => ""
  | v :: vs =>
    (match v with
     | .null => ""
     | .undef => ""
     | w => jsToString w) ++ (if vs.isEmpty then "" else ",") ++ jsToStringList vs

end

/-- An engine transform: `(value, ...args) => result`, asynchronous in the
source (the pipeline awaits each stage, so the sequential model is exact);
a thrown rejection is an `error`. -/
def TransformFn := JValue → List JValue → Except PfError JValue

/-- The default transformer `(value) => value`. -/
def idTransform : TransformFn := fun v _ => .ok v

/-- The `TemplateEngine` state set by `use`: the transform registry, the
default transformer, and the fallback string for missing data. -/
structure Engine where
  transformers : List (String × TransformFn)
  defaultTransform : TransformFn
  defaultValue : String

/-- A fresh engine (`transformers = {}`, identity default, `""` fallback). -/
def emptyEngine : Engine := ⟨[], idTransform, ""⟩

/-- One attempt of the regex `\{\{([^}]+)\}\}` at the head of the input:
`{{`, a nonempty run of non-`}` characters, then `}}`; returns the captured
content and the remainder after the match. -/
def matchAt : List Char → Option (List Char × List Char)
  | '{' :: '{' :: rest =>
    let content := rest.takeWhile (fun c => c ≠ '}')
    if content.isEmpty then none
    else
      match rest.drop content.length with
      | '}' :: '}' :: rem => some (content, rem)
      | _ => none
  | _ => none

/-- `template.match(/\{\{([^}]+)\}\}/g)`: all non-overlapping matches (full
matched texts), scanning left to right.  The fuel equals the input length,
which bounds the number of scanning steps. -/
def findMatchesAux : Nat → List Char → List (List Char)
  | 0, _ => []
  | _, [] => []
  | fuel + 1, c :: cs =>
    match matchAt (c :: cs) with
    | some (content, rem) =>
      ('{' :: '{' :: (content ++ ['}', '}'])) :: findMatchesAux fuel rem
    | none => findMatchesAux fuel cs

/-- All `{{...}}` match texts of a template. -/
def findMatches (s : List Char) : List (List Char) :=
  findMatchesAux s.length s

/-- The first match's captured content, if any (used by
`extractTemplateContent`). -/
def firstBraceContent : List Char → Option (List Char)
  | [] => none
  | c :: cs =>
    match matchAt (c :: cs) with
    | some (content, _) => some content
    | none => firstBraceContent cs

/-- `extractTemplateContent(expr)`: group 1 of the first regex match,
trimmed; `""` when there is no match. -/
def extractTemplateContent (expr : String) : String :=
  match firstBraceContent expr.data with
  | some content => jsTrim ⟨content⟩
  | none => ""

/-- `String.prototype.replace` with a string pattern: replace only the
first occurrence. -/
def replaceFirst : List Char → List Char → List Char → List Char
  | [], pat, rep => if pat.isEmpty then rep else []
  | c :: cs, pat, rep =>
    if pat.isPrefixOf (c :: cs) then rep ++ (c :: cs).drop pat.length
    else c :: replaceFirst cs pat rep

/-- `extractTransformers(content)`: split on `|`, trim every part; the
first part is the path, the rest are the transform-call strings; the
security guard checks the path and every transform-call string. -/
def extractTransformersE (content : String) : Except PfError (String × List String) := do
  let parts := (jsSplit '|' content).map jsTrim
  let path := parts.headD ""
  let transformers := parts.tail
  _ ← validateSecurityTerms path
  _ ← transformers.forM (fun t => validateSecurityTerms t)
  .ok (path, transformers)

/-- `validateTemplateContext` for the `template` operation: the data must
be a truthy object, the path nonempty after trim and security-safe (with
the extra base-path check when the path still contains `|`). -/
def validateTemplateContext (data : JValue) (path : String) : Except PfError Unit :=
  if (match data with
      | .obj _ => false
      | .arr _ _ => false
      | _ => true) then .error .invalidTemplateData
  else if jsTrim path = "" then .error .emptyPath
  else do
    _ ← validateSecurityTerms path
    if path.data.contains '|' then do
      let basePath := (jsSplit '|' path).headD ""
      if jsTrim basePath = "" then .error .emptyPath
      else validateSecurityTerms basePath
    else pure ()

/-- `processArgs` on one raw argument: strip surrounding quotes; else a
numeric literal; else `true`/`false`/`null`/`undefined`; else a context
lookup via `getProp` (a defined value wins, otherwise — and on any
lookup error — the raw text is a string literal). -/
def processArg (pcfg : PropsConfig) (data : JValue) (arg : String) : JValue :=
  let t := jsTrim arg
  if (t.data.head? = some '"' && t.data.getLast? = some '"') ||
     (t.data.head? = some '\'' && t.data.getLast? = some '\'') then
    .str ⟨(t.data.drop 1).dropLast⟩
  else
    match jsNumberOpt t with
    | some n => .num n
    | none =>
      if t = "true" then .bool true
      else if t = "false" then .bool false
      else if t = "null" then .null
      else if t = "undefined" then .undef
      else
        match getProp pcfg data t .undef with
        | .ok v => if v.isUndef then .str t else v
        | .error _ => .str t

/-- `applyTransform(value, transformExpr, data)`: split on the first `:`
into name and raw argument list (the name is trimmed only when a `:` is
present, as in the source), look the name up (unknown names fall back to
the default transformer and record a warning — returned here as the list of
unknown names), resolve the arguments, and invoke the transform. -/
def applyTransform (E : Engine) (pcfg : PropsConfig) (value : JValue)
    (transformExpr : String) (data : JValue) : Except PfError (JValue × List String) :=
  let nameArgs : String × String :=
    match transformExpr.data.indexOf? ':' with
    | none => (transformExpr, "")
    | some i => (jsTrim ⟨transformExpr.data.take i⟩, jsTrim ⟨transformExpr.data.drop (i + 1)⟩)
  if nameArgs.1 = "" then .error .transformNameRequired
  else
    let found := E.transformers.find? (fun nt => nt.1 = nameArgs.1)
    let transform := match found with
      | some nt => nt.2
      | none => E.defaultTransform
    let warns : List String := match found with
      | some _ => []
      | none => [nameArgs.1]
    let args := if nameArgs.2 = "" then [] else (jsSplit ',' nameArgs.2).map jsTrim
    match transform value (args.map (processArg pcfg data)) with
    | .ok r => .ok (r, warns)
    | .error e => .error e

/-- `processTemplateMatch(match, data)`: extract and validate the content,
resolve the path through `getProp` (an `undefined` result becomes the
engine's fallback string), then thread the value through the transform
chain left to right, and stringify.  The second component collects the
unknown-transform warnings. -/
def processTemplateMatch (E : Engine) (pcfg : PropsConfig) (matchStr : String)
    (data : JValue) : Except PfError (String × List String) := do
  let content := extractTemplateContent matchStr
  if content = "" then .error .emptyPath
  else do
    let pt ← extractTransformersE content
    _ ← validateTemplateContext data pt.1
    let v0 ← getProp pcfg data pt.1 .undef
    let value : JValue := if v0.isUndef then .str E.defaultValue else v0
    let r ← pt.2.foldlM
      (fun acc t => do
        let vw ← applyTransform E pcfg acc.1 t data
        pure (vw.1, acc.2 ++ vw.2))
      (value, ([] : List String))
    .ok (jsToString r.1, r.2)

/-- `processTemplate(template, data)`: collect all `{{...}}` matches of the
original template, then for each match in source order evaluate it and
replace the first occurrence of the matched text in the running result
(`String.prototype.replace` with a string pattern). -/
def processTemplate (E : Engine) (pcfg : PropsConfig) (tpl : String)
    (data : JValue) : Except PfError (String × List String) := do
  let ms := (findMatches tpl.data).map fun l => (⟨l⟩ : String)
  ms.foldlM
    (fun acc m => do
      let vw ← processTemplateMatch E pcfg m data
      pure ((⟨replaceFirst acc.1.data m.data vw.1.data⟩ : String), acc.2 ++ vw.2))
    (tpl, ([] : List String))

/-- Keep the first occurrence of every string, dropping later duplicates. -/
def dedupFirstAux (seen : List String) : List String → List String
  | [] => []
  | x :: xs =>
    if seen.contains x then dedupFirstAux seen xs
    else x :: dedupFirstAux (x :: seen) xs

/-- Deduplicate, keeping first occurrences in order. -/
def dedupFirst (l : List String) : List String :=
  dedupFirstAux [] l

/-- Replace every (non-overlapping, left-to-right) occurrence of `pat`;
the replacement text is not rescanned. -/
def replaceAllAux : Nat → List Char → List Char → List Char → List Char
  | 0, s, _, _ => s
  | _, [], pat, rep => if pat.isEmpty then rep else []
  | fuel + 1, c :: cs, pat, rep =>
    if pat.isPrefixOf (c :: cs) && !pat.isEmpty then
      rep ++ replaceAllAux fuel ((c :: cs).drop pat.length) pat rep
    else c :: replaceAllAux fuel cs pat rep

/-- Replace every occurrence of `pat` in `s`. -/
def replaceAll (s pat rep : List Char) : List Char :=
  replaceAllAux s.length s pat rep

/-- Modelled from the spec: the brace-style replacement step as §4.5 and C9
describe it — "the same result string is substituted for all identical
occurrences during the replace step for that match, rather than each
occurrence being independently re-evaluated": each *distinct* matched text
is evaluated once and substituted for every occurrence at once.  This is
the comparison point for the refinement claim C9; the source
(`processTemplate`) instead re-evaluates every occurrence and replaces only
the first occurrence each time. -/
def processTemplateSpecC9 (E : Engine) (pcfg : PropsConfig) (tpl : String)
    (data : JValue) : Except PfError (String × List String) := do
  let ms := dedupFirst ((findMatches tpl.data).map fun l => (⟨l⟩ : String))
  ms.foldlM
    (fun acc m => do
      let vw ← processTemplateMatch E pcfg m data
      pure ((⟨replaceAll acc.1.data m.data vw.1.data⟩ : String), acc.2 ++ vw.2))
    (tpl, ([] : List String))

/-! ### Concrete transforms used by the claims -/

/-- The transform `add` of C2: `(v, n) => v + n` on numbers. -/
def addT : TransformFn := fun v args =>
  match v, args with
  | .num a, .num b :: _ => .ok (.num (a + b))
  | _, _ => .error (.transformFailure "add expects numbers")

/-- The transform `multiply` of C2: `(v, n) => v * n` on numbers. -/
def mulT : TransformFn := fun v args =>
  match v, args with
  | .num a, .num b :: _ => .ok (.num (a * b))
  | _, _ => .error (.transformFailure "multiply expects numbers")

/-- An engine with `add` and `multiply` registered (C2). -/
def engC2 : Engine := ⟨[("add", addT), ("multiply", mulT)], idTransform, ""⟩

end PropForge

namespace PropForge

/-! ## Theorems for the claims -/

/-- C2: with transforms `add` and `multiply` registered, rendering the
brace template `x | add:1 | multiply:2` against data `x = 3` resolves to
the string `"8"` (and emits no warnings): the transform chain is applied
left to right, each stage's output feeding the next stage's input. -/
theorem transform_chain_left_to_right :
    processTemplate engC2 dcfg "\x7b\x7bx | add:1 | multiply:2\x7d\x7d"
      (.obj [("x", .num 3)]) = .ok ("8", []) := by
  rfl

/-- C7: rendering a template whose expression names an unregistered
transform never rejects: on data `x = "v"` it resolves to `"v"` with a
warning recording the unknown name `doesNotExist`, and for every value of
`x` in the data context the render still resolves (with the same warning)
rather than rejecting. -/
theorem unknown_transform_nonfatal :
    processTemplate emptyEngine dcfg "\x7b\x7bx | doesNotExist\x7d\x7d"
      (.obj [("x", .str "v")]) = .ok ("v", ["doesNotExist"]) ∧
    ∀ v : JValue, ∃ out : String,
      processTemplate emptyEngine dcfg "\x7b\x7bx | doesNotExist\x7d\x7d"
        (.obj [("x", v)]) = .ok (out, ["doesNotExist"]) := by
  refine ⟨by rfl, fun v => ?_⟩
  cases v with
  | bool b => cases b <;> exact ⟨_, rfl⟩
  | _ => exact ⟨_, rfl⟩

/-- C9 counterexample: brace-style replacement is *not* "the same result
string substituted for all identical occurrences during the replace step
for that match" — the source re-evaluates each occurrence and
`String.prototype.replace` substitutes only the first occurrence of the
matched text.  On the template consisting of the expression for `x`
twice, with `x` bound to a string that itself contains that matched text,
the source yields a different result than the claimed replace-all-per-step
semantics (`processTemplateSpecC9`, written from the spec's words). -/
theorem brace_replace_first_occurrence_ce :
    processTemplate emptyEngine dcfg "\x7b\x7bx\x7d\x7d\x7b\x7bx\x7d\x7d"
      (.obj [("x", .str "a\x7b\x7bx\x7d\x7d")]) =
      .ok ("aa\x7b\x7bx\x7d\x7d\x7b\x7bx\x7d\x7d", []) ∧
    processTemplateSpecC9 emptyEngine dcfg "\x7b\x7bx\x7d\x7d\x7b\x7bx\x7d\x7d"
      (.obj [("x", .str "a\x7b\x7bx\x7d\x7d")]) =
      .ok ("a\x7b\x7bx\x7d\x7da\x7b\x7bx\x7d\x7d", []) ∧
    ("aa\x7b\x7bx\x7d\x7d\x7b\x7bx\x7d\x7d" : String) ≠
      "a\x7b\x7bx\x7d\x7da\x7b\x7bx\x7d\x7d" := by
  refine ⟨by rfl, by rfl, by decide⟩

/-- C9 amended: substitution is by literal substring replacement, but each
match occurrence is independently re-evaluated and each replace step
substitutes the result for only the *first* occurrence of the matched text
in the running result.  When the evaluated results do not reintroduce
matched text, identical occurrences therefore all receive the same result
by the end of the render, coinciding with the replace-all-per-step
reading: on a template with two identical expressions and a plain string
value, both semantics produce the same output. -/
theorem identical_matches_same_result :
    processTemplate emptyEngine dcfg "\x7b\x7bx\x7d\x7d \x7b\x7bx\x7d\x7d"
      (.obj [("x", .str "v")]) = .ok ("v v", []) ∧
    processTemplateSpecC9 emptyEngine dcfg "\x7b\x7bx\x7d\x7d \x7b\x7bx\x7d\x7d"
      (.obj [("x", .str "v")]) = .ok ("v v", []) := by
  refine ⟨by rfl, by rfl⟩

/-! ### Validation helper lemmas -/

theorem validateInput_empty {c : JValue} {path : String}
    (hc : c.isNullish = false) (hp : jsTrim path = "") :
    validateInput c path = .error .invalidPath := by
  unfold validateInput
  rw [hc]
  simp [hp]

theorem validateInput_not_null {c : JValue} {path : String}
    (hc : c.isNullish = false) (hp : jsTrim path ≠ "") :
    validateInput c path = validateSecurityTerms path := by
  unfold validateInput
  rw [hc]
  simp [hp]

theorem getProp_error_of_security {cfg : PropsConfig} {c : JValue} {path : String}
    {d : JValue} {e : PfError} (hc : c.isNullish = false) (hp : jsTrim path ≠ "")
    (hs : validateSecurityTerms path = .error e) :
    getProp cfg c path d = .error e := by
  unfold getProp
  rw [validateInput_not_null hc hp, hs]

/-- C5 counterexample: the claim quantifies over "any container c
whatsoever", but for a `null` container `getProp` raises
`NullOrUndefinedContainer` — the null check of `validateInput` runs before
the security guard — so the failure kind is not `SecurityViolation`. -/
theorem getProp_null_container_error_kind :
    getProp dcfg .null "a.__proto__" .undef = .error .nullOrUndefined ∧
    ∀ t, PfError.nullOrUndefined ≠ PfError.securityViolation t :=
  ⟨rfl, fun _ h => PfError.noConfusion h⟩

/-- C5 amended: for every reserved identifier R and every container that is
not `null`/`undefined` (the null check precedes the guard), `getProp` on
the path `"a." ++ R` fails with the `SecurityViolation` error naming R,
under any configuration and call-site default. -/
theorem getProp_reserved_segment_security (cfg : PropsConfig) (c : JValue)
    (d : JValue) (hc : c.isNullish = false) :
    ∀ R ∈ securityTerms, getProp cfg c ("a." ++ R) d = .error (.securityViolation R) := by
  intro R hR
  simp only [securityTerms, List.mem_cons, List.not_mem_nil, or_false] at hR
  rcases hR with rfl | rfl | rfl | rfl | rfl | rfl <;>
    exact getProp_error_of_security hc (by decide) (by rfl)

/-- C5 witness. -/
theorem getProp_reserved_segment_security_witness :
    getProp dcfg (.obj []) "a.get" .undef = .error (.securityViolation "get") :=
  getProp_reserved_segment_security dcfg (.obj []) .undef (by rfl) "get" (by decide)

/-- C6 counterexample: for a `null`/`undefined` container, `removeProp`
returns it unchanged even when the path is invalid (empty) or contains a
reserved identifier — the nullish check runs before any validation — so
the claim's final clause ("for every null/undefined container and every
invalid or unsafe path the call raises") is false. -/
theorem removeProp_null_invalid_path_silent :
    removeProp dcfg .null "" = .ok .null ∧
    removeProp dcfg .null "a.__proto__" = .ok .null ∧
    removeProp dcfg (.undef) "" = .ok .undef :=
  ⟨rfl, rfl, rfl⟩

/-- C6 amended: `removeProp` treats a `null`/`undefined` container as a
silent no-op for *every* path (validation is skipped entirely); for a
non-nullish container it still raises `InvalidPath` on an empty or
whitespace-only path and the security violation on an unsafe path. -/
theorem removeProp_null_noop_and_raises (cfg : PropsConfig) :
    (∀ p, removeProp cfg .null p = .ok .null ∧ removeProp cfg .undef p = .ok .undef) ∧
    (∀ (c : JValue) (p : String), c.isNullish = false → jsTrim p = "" →
      removeProp cfg c p = .error .invalidPath) ∧
    (∀ (c : JValue) (p : String) (e : PfError), c.isNullish = false → jsTrim p ≠ "" →
      validateSecurityTerms p = .error e → removeProp cfg c p = .error e) := by
  refine ⟨fun p => ⟨rfl, rfl⟩, ?_, ?_⟩
  · intro c p hc hp
    unfold removeProp
    rw [hc]
    simp only [Bool.false_eq_true, if_false]
    rw [validateInput_empty hc hp]
  · intro c p e hc hp hs
    unfold removeProp
    rw [hc]
    simp only [Bool.false_eq_true, if_false]
    rw [validateInput_not_null hc hp, hs]

/-- C6 witness. -/
theorem removeProp_null_noop_and_raises_witness :
    removeProp dcfg .null "a.b" = .ok .null ∧
    removeProp dcfg (.obj []) "  " = .error .invalidPath ∧
    removeProp dcfg (.obj []) "__proto__" = .error (.securityViolation "__proto__") :=
  ⟨((removeProp_null_noop_and_raises dcfg).1 "a.b").1,
   (removeProp_null_noop_and_raises dcfg).2.1 _ _ (by rfl) (by decide),
   (removeProp_null_noop_and_raises dcfg).2.2 _ _ _ (by rfl) (by decide) (by rfl)⟩

/-- C1 counterexample: the round trip fails for a valid (non-null
container, nonempty, security-safe) path when an intermediate value along
it is `null`: `setProp` only creates an intermediate when the existing
value is `undefined`, so it descends into the `null` and the strict-mode
write throws a `TypeError` — `setProp` followed by `getProp` cannot return
the written value because the write itself fails. -/
theorem setProp_null_intermediate_throws :
    setProp dcfg (.obj [("a", .null)]) "a.b" (.num 1) =
      .error (.typeError "assignment to primitive or null") ∧
    ∀ c : JValue, (Except.error (PfError.typeError "assignment to primitive or null")
      : Except PfError JValue) ≠ .ok c :=
  ⟨rfl, fun _ h => Except.noConfusion h⟩

/-- C4 counterexample: `hasProp` does *not* return `false` when an
intermediate value along the path is a scalar — `"b" in 5` throws a
`TypeError` in JavaScript — so "none of the four operations throws when
data along p is merely missing (… a scalar … intermediate)" is false. -/
theorem hasProp_scalar_intermediate_throws :
    hasProp dcfg (.obj [("a", .num 5)]) "a.b" =
      .error (.typeError "in operator on non-object") ∧
    ∀ b : Bool, (Except.error (PfError.typeError "in operator on non-object")
      : Except PfError Bool) ≠ .ok b :=
  ⟨rfl, fun _ h => Except.noConfusion h⟩

/-! ### Association-list and padded-index lemmas -/

theorem lookupField_setField_self (f : List (String × JValue)) (k : String) (v : JValue) :
    lookupField (setField f k v) k = v := by
  induction f with
  | nil => simp [setField, lookupField]
  | cons hd tl ih =>
    by_cases h : hd.1 = k
    · simp [setField, h, lookupField]
    · simp [setField, h, lookupField, ih]

theorem lookupField_setField_ne (f : List (String × JValue)) {k k' : String}
    (v : JValue) (h : k' ≠ k) :
    lookupField (setField f k v) k' = lookupField f k' := by
  induction f with
  | nil => simp [setField, lookupField, Ne.symm h]
  | cons hd tl ih =>
    by_cases hh : hd.1 = k
    · subst hh
      simp [setField, lookupField, Ne.symm h]
    · simp only [setField, hh, if_false, lookupField, ih]

theorem any_setField_self (f : List (String × JValue)) (k : String) (v : JValue) :
    (setField f k v).any (fun x => x.1 = k) = true := by
  induction f with
  | nil => simp [setField]
  | cons hd tl ih =>
    by_cases h : hd.1 = k
    · simp [setField, h]
    · simp [setField, h, ih]

theorem getD_set_self : ∀ (l : List JValue) (i : Nat) (v : JValue), i < l.length →
    (l.set i v).getD i .undef = v
  | [], i, v, h => by simp at h
  | x :: xs, 0, v, _ => rfl
  | x :: xs, i + 1, v, h =>
    getD_set_self xs i v (by simpa using h)

theorem getD_set_ne : ∀ (l : List JValue) (i j : Nat) (v : JValue), i ≠ j →
    (l.set i v).getD j .undef = l.getD j .undef
  | [], _, _, _, _ => rfl
  | x :: xs, 0, 0, v, h => absurd rfl h
  | x :: xs, 0, j + 1, v, _ => rfl
  | x :: xs, i + 1, 0, v, _ => rfl
  | x :: xs, i + 1, j + 1, v, h =>
    getD_set_ne xs i j v (fun hij => h (by omega))

theorem getD_of_ge : ∀ (l : List JValue) (j : Nat), l.length ≤ j →
    l.getD j .undef = .undef
  | [], j, _ => by cases j <;> rfl
  | x :: xs, 0, h => by simp at h
  | x :: xs, j + 1, h => getD_of_ge xs j (by simpa using h)

theorem getD_append_left : ∀ (l rest : List JValue) (j : Nat), j < l.length →
    (l ++ rest).getD j .undef = l.getD j .undef
  | [], _, j, h => by simp at h
  | x :: xs, rest, 0, _ => rfl
  | x :: xs, rest, j + 1, h =>
    getD_append_left xs rest j (by simpa using h)

theorem getD_append_shift : ∀ (l rest : List JValue) (j : Nat),
    (l ++ rest).getD (l.length + j) .undef = rest.getD j .undef
  | [], rest, j => by simp
  | x :: xs, rest, j => by
    have := getD_append_shift xs rest j
    simpa [Nat.succ_add] using this

theorem getD_replicate_undef : ∀ (k j : Nat),
    (List.replicate k (JValue.undef)).getD j .undef = .undef
  | 0, j => by cases j <;> rfl
  | k + 1, 0 => rfl
  | k + 1, j + 1 => getD_replicate_undef k j

theorem getD_pad_core (k : Nat) (v : JValue) (m : Nat) :
    (List.replicate k JValue.undef ++ [v]).getD m .undef =
      if m = k then v else .undef := by
  by_cases h : m = k
  · subst h
    have h2 : (List.replicate m JValue.undef).length = m := List.length_replicate _ _
    rw [if_pos rfl]
    calc (List.replicate m JValue.undef ++ [v]).getD m .undef
        = (List.replicate m JValue.undef ++ [v]).getD
            ((List.replicate m JValue.undef).length + 0) .undef := by simp [h2]
      _ = ([v] : List JValue).getD 0 .undef := getD_append_shift _ _ 0
      _ = v := rfl
  · rw [if_neg h]
    by_cases hlt : m < k
    · rw [getD_append_left _ _ _ (by simpa using hlt), getD_replicate_undef]
    · apply getD_of_ge
      simp only [List.length_append, List.length_replicate, List.length_cons,
        List.length_nil]
      omega

theorem getD_listSetPad_self (l : List JValue) (i : Nat) (v : JValue) :
    (listSetPad l i v).getD i .undef = v := by
  unfold listSetPad
  split
  · exact getD_set_self l i v (by assumption)
  · rename_i h
    obtain ⟨k, rfl⟩ : ∃ k, i = l.length + k := ⟨i - l.length, by omega⟩
    simp only [Nat.add_sub_cancel_left]
    rw [List.append_assoc, getD_append_shift, getD_pad_core, if_pos rfl]

theorem length_listSetPad (l : List JValue) (i : Nat) (v : JValue) :
    i < (listSetPad l i v).length := by
  unfold listSetPad
  split
  · simpa using (by assumption : i < l.length)
  · simp only [List.length_append, List.length_replicate, List.length_cons,
      List.length_nil]
    omega

theorem getD_listSetPad_ne (l : List JValue) (i j : Nat) (v : JValue) (h : j ≠ i) :
    (listSetPad l i v).getD j .undef = l.getD j .undef := by
  unfold listSetPad
  split
  · exact getD_set_ne l i j v (fun hij => h hij.symm)
  · rename_i hge
    have hi : l.length ≤ i := by omega
    by_cases hj : j < l.length
    · rw [List.append_assoc, getD_append_left _ _ _ hj]
    · have hjl : l.length ≤ j := by omega
      rw [getD_of_ge l j hjl, List.append_assoc]
      obtain ⟨m, rfl⟩ : ∃ m, j = l.length + m := ⟨j - l.length, by omega⟩
      rw [getD_append_shift, getD_pad_core, if_neg (by omega)]

theorem getIdx_listSetPad_self (l : List JValue) (i : Nat) (v : JValue) :
    getIdx (listSetPad l i v) i = v :=
  getD_listSetPad_self l i v

theorem getIdx_listSetPad_ne (l : List JValue) (i j : Nat) (v : JValue) (h : j ≠ i) :
    getIdx (listSetPad l i v) j = getIdx l j :=
  getD_listSetPad_ne l i j v h

theorem getIdx_set_self (l : List JValue) (i : Nat) (v : JValue)
    (h : i < l.length) : getIdx (l.set i v) i = v :=
  getD_set_self l i v h

theorem getIdx_undef_of_ge (l : List JValue) (i : Nat) (h : l.length ≤ i) :
    getIdx l i = .undef :=
  getD_of_ge l i h

theorem length_listResize (l : List JValue) (n : Nat) :
    (listResize l n).length = n := by
  unfold listResize
  split
  · simp only [List.length_take]
    omega
  · simp only [List.length_append, List.length_replicate]
    omega

/-! ### `setMember` read-back and frame lemmas -/

theorem canonIndex_repr {s : String} {i : Nat} (h : canonIndex s = some i) :
    s = toString i := by
  unfold canonIndex at h
  split at h
  · rename_i hg
    obtain ⟨-, -, hr⟩ := hg
    injection h with h
    rw [← h, hr]
  · exact absurd h (by simp)

theorem canonIndex_inj {s t : String} {i : Nat} (hs : canonIndex s = some i)
    (ht : canonIndex t = some i) : s = t := by
  rw [canonIndex_repr hs, canonIndex_repr ht]

theorem setMember_ok_cases {c : JValue} {k : String} {v c' : JValue}
    (h : setMember c k v = .ok c') :
    (∃ f, c = .obj f ∧ c' = .obj (setField f k v)) ∨
    (∃ e p i, c = .arr e p ∧ canonIndex k = some i ∧
      c' = .arr (listSetPad e i v) p) ∨
    (∃ e p n, c = .arr e p ∧ canonIndex k = none ∧ k = "length" ∧ v = .num n ∧
      0 ≤ n ∧ c' = .arr (listResize e n.toNat) p) ∨
    (∃ e p, c = .arr e p ∧ canonIndex k = none ∧ k ≠ "length" ∧
      c' = .arr e (setField p k v)) := by
  cases c
  case obj f =>
    simp only [setMember, Except.ok.injEq] at h
    exact Or.inl ⟨f, rfl, h.symm⟩
  case arr e p =>
    simp only [setMember] at h
    cases hci : canonIndex k with
    | some i =>
      rw [hci] at h
      simp only [Except.ok.injEq] at h
      exact Or.inr (Or.inl ⟨e, p, i, rfl, rfl, h.symm⟩)
    | none =>
      rw [hci] at h
      by_cases hk : k = "length"
      · rw [if_pos hk] at h
        cases v with
        | num n =>
          dsimp only at h
          by_cases hn : (0 : Int) ≤ n
          · rw [if_pos hn] at h
            simp only [Except.ok.injEq] at h
            exact Or.inr (Or.inr (Or.inl ⟨e, p, n, rfl, rfl, hk, rfl, hn, h.symm⟩))
          · rw [if_neg hn] at h
            simp at h
        | undef => simp at h
        | null => simp at h
        | bool b => simp at h
        | str s => simp at h
        | obj f2 => simp at h
        | arr e2 p2 => simp at h
      · rw [if_neg hk] at h
        simp only [Except.ok.injEq] at h
        exact Or.inr (Or.inr (Or.inr ⟨e, p, rfl, rfl, hk, h.symm⟩))
  case undef => simp [setMember] at h
  case null => simp [setMember] at h
  case bool => simp [setMember] at h
  case num => simp [setMember] at h
  case str => simp [setMember] at h

theorem setMember_not_nullish {c : JValue} {k : String} {v c' : JValue}
    (h : setMember c k v = .ok c') : c'.isNullish = false := by
  rcases setMember_ok_cases h with ⟨f, rfl, rfl⟩ | ⟨e, p, i, rfl, hci, rfl⟩ |
    ⟨e, p, n, rfl, hci, hk, rfl, hn, rfl⟩ | ⟨e, p, rfl, hci, hk, rfl⟩ <;> rfl

theorem setMember_get {c : JValue} {k : String} {v c' : JValue}
    (h : setMember c k v = .ok c') (hk : k ≠ "length") : getMemberPure c' k = v := by
  rcases setMember_ok_cases h with ⟨f, rfl, rfl⟩ | ⟨e, p, i, rfl, hci, rfl⟩ |
    ⟨e, p, n, rfl, hci, hklen, rfl, hn, rfl⟩ | ⟨e, p, rfl, hci, hklen, rfl⟩
  · simp [getMemberPure, lookupField_setField_self]
  · simp [getMemberPure, hci, getIdx_listSetPad_self]
  · exact absurd hklen hk
  · simp [getMemberPure, hci, hklen, lookupField_setField_self]

theorem setMember_has {c : JValue} {k : String} {v c' : JValue}
    (h : setMember c k v = .ok c') (hk : k ≠ "length") : hasMember c' k = .ok true := by
  rcases setMember_ok_cases h with ⟨f, rfl, rfl⟩ | ⟨e, p, i, rfl, hci, rfl⟩ |
    ⟨e, p, n, rfl, hci, hklen, rfl, hn, rfl⟩ | ⟨e, p, rfl, hci, hklen, rfl⟩
  · simp [hasMember, any_setField_self]
  · simp [hasMember, hci, length_listSetPad]
  · exact absurd hklen hk
  · simp [hasMember, hci, any_setField_self]

theorem setMember_get_ne {c : JValue} {k k' : String} {v c' : JValue}
    (h : setMember c k v = .ok c') (hne : k' ≠ k) (hk : k ≠ "length")
    (hk' : k' ≠ "length") :
    getMemberPure c' k' = getMemberPure c k' := by
  rcases setMember_ok_cases h with ⟨f, rfl, rfl⟩ | ⟨e, p, i, rfl, hci, rfl⟩ |
    ⟨e, p, n, rfl, hci, hklen, rfl, hn, rfl⟩ | ⟨e, p, rfl, hci, hklen, rfl⟩
  · simp [getMemberPure, lookupField_setField_ne _ _ hne]
  · cases hci' : canonIndex k' with
    | some j =>
      have hij : j ≠ i := fun hji => hne (canonIndex_inj hci' (hji ▸ hci))
      simp [getMemberPure, hci', getIdx_listSetPad_ne e i j v hij]
    | none => simp [getMemberPure, hci', hk']
  · exact absurd hklen hk
  · cases hci' : canonIndex k' with
    | some j => simp [getMemberPure, hci']
    | none => simp [getMemberPure, hci', hk', lookupField_setField_ne _ _ hne]


/-! ### Traversal lemmas for `setProp` / `getProp` / `hasProp` -/

theorem splitChar_ne_nil (sep : Char) (l : List Char) : splitChar sep l ≠ [] := by
  cases l with
  | nil => simp [splitChar]
  | cons c cs =>
    simp only [splitChar]
    split
    · simp
    · split <;> simp

theorem jsSplit_ne_nil (sep : Char) (s : String) : jsSplit sep s ≠ [] := by
  unfold jsSplit
  intro h
  exact splitChar_ne_nil sep s.data (List.map_eq_nil_iff.mp h)

theorem validateInput_ok_parts {c : JValue} {p : String} {u : Unit}
    (h : validateInput c p = .ok u) :
    c.isNullish = false ∧ jsTrim p ≠ "" ∧ validateSecurityTerms p = .ok () := by
  unfold validateInput at h
  split at h
  · exact absurd h (by simp)
  · split at h
    · exact absurd h (by simp)
    · rename_i h1 h2
      exact ⟨by simpa using h1, by simpa using h2, h⟩

theorem setProp_ok_inversion {cfg : PropsConfig} {c : JValue} {p : String}
    {v c' : JValue} (h : setProp cfg c p v = .ok c') :
    (∃ u, validateInput c p = .ok u) ∧ validateSecurityTerms p = .ok () ∧
    setParts c (jsSplit '.' p) (applyTransformersFn cfg.setTransformers p v) = .ok c' := by
  unfold setProp at h
  split at h
  · exact absurd h (by simp)
  · rename_i u hvi
    split at h
    · exact absurd h (by simp)
    · rename_i u2 hvs
      exact ⟨⟨u, hvi⟩, by rw [hvs], h⟩

theorem getProp_of_ok_validation {cfg : PropsConfig} {c : JValue} {p : String}
    (d : JValue) (hc : c.isNullish = false) (hp : jsTrim p ≠ "")
    (hs : validateSecurityTerms p = .ok ()) :
    getProp cfg c p d =
      (match getPartsRaw c (jsSplit '.' p) with
       | none => .ok (if d.isNullish then cfg.fallback else d)
       | some v =>
         if v.isUndef then .ok (if d.isNullish then cfg.fallback else d)
         else .ok (applyTransformersFn cfg.getTransformers p v)) := by
  unfold getProp
  rw [validateInput_not_null hc hp, hs]

theorem hasProp_of_ok_validation {cfg : PropsConfig} {c : JValue} {p : String}
    (hc : c.isNullish = false) (hp : jsTrim p ≠ "")
    (hs : validateSecurityTerms p = .ok ()) :
    hasProp cfg c p = hasParts c (jsSplit '.' p) := by
  unfold hasProp
  rw [validateInput_not_null hc hp, hs]

theorem setParts_not_nullish : ∀ {parts : List String} {c v c' : JValue},
    setParts c parts v = .ok c' → parts ≠ [] → c'.isNullish = false
  | [], _, _, _, _, hne => absurd rfl hne
  | [last], c, v, c', h, _ => setMember_not_nullish (h : setMember c last v = .ok c')
  | p :: q :: rest, c, v, c', h, _ => by
    unfold setParts at h
    split at h
    · exact absurd h (by simp)
    · split at h
      · exact absurd h (by simp)
      · exact setMember_not_nullish h

theorem getPartsRaw_cons_not_nullish {c : JValue} {p : String}
    {rest : List String} (h : c.isNullish = false) :
    getPartsRaw c (p :: rest) = getPartsRaw (getMemberPure c p) rest := by
  simp [getPartsRaw, h]

theorem hasParts_cons_true {c : JValue} {p : String} {rest : List String}
    (h : c.isNullish = false) (hm : hasMember c p = .ok true) :
    hasParts c (p :: rest) = hasParts (getMemberPure c p) rest := by
  simp [hasParts, h, hm]

/-- Core correctness of the `setProp` write loop: along a path without
`length` segments, a successful write makes the raw read traversal return
exactly the written value, and every segment of the path exists for the
`in`-based traversal of `hasProp`. -/
theorem set_get_core : ∀ (parts : List String) {c v c' : JValue},
    "length" ∉ parts → setParts c parts v = .ok c' → parts ≠ [] →
    getPartsRaw c' parts = some v ∧ hasParts c' parts = .ok true
  | [], _, _, _, _, _, hne => absurd rfl hne
  | [last], c, v, c', hlen, h, _ => by
    have h' : setMember c last v = .ok c' := h
    have hk : last ≠ "length" := by
      intro e
      exact hlen (by simp [e])
    have h1 := setMember_not_nullish h'
    constructor
    · show getPartsRaw c' [last] = some v
      rw [getPartsRaw_cons_not_nullish h1, setMember_get h' hk]
      rfl
    · show hasParts c' [last] = .ok true
      rw [hasParts_cons_true h1 (setMember_has h' hk)]
      rfl
  | p :: q :: rest, c, v, c', hlen, h, _ => by
    have hp : p ≠ "length" := by
      intro e
      exact hlen (by simp [e])
    have hlen' : "length" ∉ q :: rest := fun hm => hlen (List.mem_cons_of_mem _ hm)
    unfold setParts at h
    split at h
    · exact absurd h (by simp)
    · split at h
      · exact absurd h (by simp)
      · rename_i sub hsub
        have ih := set_get_core (q :: rest) hlen' hsub (by simp)
        have h1 := setMember_not_nullish h
        constructor
        · show getPartsRaw c' (p :: q :: rest) = some v
          rw [getPartsRaw_cons_not_nullish h1, setMember_get h hp]
          exact ih.1
        · show hasParts c' (p :: q :: rest) = .ok true
          rw [hasParts_cons_true h1 (setMember_has h hp), setMember_get h hp]
          exact ih.2

/-- C1 amended: the set/get round trip holds for every container, value and
valid path on which the write itself succeeds (ruling out the `TypeError`
cases: a `null` or primitive intermediate, which `setProp` does not replace
— only `undefined` intermediates are created), provided no configured
`getProp`/`setProp` transformer rewrites the value, the path does not
address a sequence `length` property, and the written value is not
`undefined` (for which `getProp` returns the fallback instead, see C8). -/
theorem set_get_roundtrip (cfg : PropsConfig) (c : JValue) (p : String)
    (v c' : JValue) (hget : cfg.getTransformers = [])
    (hset : cfg.setTransformers = []) (hv : v.isUndef = false)
    (hlen : "length" ∉ jsSplit '.' p) (h : setProp cfg c p v = .ok c') :
    getProp cfg c' p .undef = .ok v := by
  obtain ⟨⟨u, hvi⟩, hvs, hsp⟩ := setProp_ok_inversion h
  rw [hset] at hsp
  have htv : applyTransformersFn [] p v = v := rfl
  rw [htv] at hsp
  obtain ⟨hc, hp2, -⟩ := validateInput_ok_parts hvi
  have hcore := set_get_core (jsSplit '.' p) hlen hsp (jsSplit_ne_nil _ _)
  have hc' := setParts_not_nullish hsp (jsSplit_ne_nil _ _)
  rw [getProp_of_ok_validation .undef hc' hp2 hvs, hcore.1]
  simp [hv, hget, applyTransformersFn]

/-- C1 witness. -/
theorem set_get_roundtrip_witness :
    setProp dcfg (.obj []) "a.b" (.num 7) = .ok (.obj [("a", .obj [("b", .num 7)])]) ∧
    getProp dcfg (.obj [("a", .obj [("b", .num 7)])]) "a.b" .undef = .ok (.num 7) :=
  ⟨rfl, set_get_roundtrip dcfg (.obj []) "a.b" (.num 7)
    (.obj [("a", .obj [("b", .num 7)])]) rfl rfl rfl (by decide) rfl⟩

/-- C8: after a successful `setProp` of `undefined` at a valid path (not
addressing a sequence `length`, with no `setProp` value transformer
configured), `hasProp` is `true` — every segment exists, the final key
included — while `getProp` returns the configured fallback rather than the
stored `undefined`: key presence and value-definedness are independent. -/
theorem set_undefined_has_get (cfg : PropsConfig) (c : JValue) (p : String)
    (c' : JValue) (hset : cfg.setTransformers = [])
    (hlen : "length" ∉ jsSplit '.' p) (h : setProp cfg c p .undef = .ok c') :
    hasProp cfg c' p = .ok true ∧ getProp cfg c' p .undef = .ok cfg.fallback := by
  obtain ⟨⟨u, hvi⟩, hvs, hsp⟩ := setProp_ok_inversion h
  rw [hset] at hsp
  have htv : applyTransformersFn [] p JValue.undef = .undef := rfl
  rw [htv] at hsp
  obtain ⟨hc, hp2, -⟩ := validateInput_ok_parts hvi
  have hcore := set_get_core (jsSplit '.' p) hlen hsp (jsSplit_ne_nil _ _)
  have hc' := setParts_not_nullish hsp (jsSplit_ne_nil _ _)
  constructor
  · rw [hasProp_of_ok_validation hc' hp2 hvs]
    exact hcore.2
  · rw [getProp_of_ok_validation .undef hc' hp2 hvs, hcore.1]
    rfl

/-- C8 witness. -/
theorem set_undefined_has_get_witness :
    hasProp dcfg (.obj [("k", .undef)]) "k" = .ok true ∧
    getProp dcfg (.obj [("k", .undef)]) "k" .undef = .ok .undef :=
  set_undefined_has_get dcfg (.obj []) "k" (.obj [("k", .undef)]) rfl
    (by decide) rfl


/-! ### Idempotence of `removeProp` off sequence parents (C3) -/

theorem not_undef_of_not_nullish {x : JValue} (h : x.isNullish = false) :
    x.isUndef = false := by
  cases x <;> simp_all [JValue.isNullish, JValue.isUndef]

theorem filter_key_idem (f : List (String × JValue)) (k : String) :
    (f.filter (fun x => x.1 ≠ k)).filter (fun x => x.1 ≠ k) =
      f.filter (fun x => x.1 ≠ k) := by
  induction f with
  | nil => rfl
  | cons hd tl ih =>
    by_cases h : hd.1 = k <;> simp [h, ih]

theorem setField_setField (f : List (String × JValue)) (k : String) (v : JValue) :
    setField (setField f k v) k v = setField f k v := by
  induction f with
  | nil => simp [setField]
  | cons hd tl ih =>
    by_cases h : hd.1 = k
    · simp [setField, h]
    · simp [setField, h, ih]

theorem stitch_not_nullish {c : JValue} (p : String) (x : JValue)
    (hc : c.isNullish = false) : (stitchMember c p x).isNullish = false := by
  cases c with
  | obj f => rfl
  | arr e pr =>
    simp only [stitchMember]
    cases canonIndex p with
    | some i => rfl
    | none => by_cases hl : p = "length" <;> simp [hl, JValue.isNullish]
  | null => simp [JValue.isNullish] at hc
  | undef => simp [JValue.isNullish] at hc
  | bool b => rfl
  | num n => rfl
  | str s => rfl

theorem stitch_stitch (c : JValue) (p : String) (x : JValue) :
    stitchMember (stitchMember c p x) p x = stitchMember c p x := by
  cases c with
  | obj f => simp [stitchMember, setField_setField]
  | arr e pr =>
    simp only [stitchMember]
    cases hci : canonIndex p with
    | some i =>
      by_cases hi : i < e.length
      · simp [stitchMember, hci, hi, List.set_set, List.length_set]
      · simp [stitchMember, hci, hi]
    | none =>
      by_cases hl : p = "length"
      · simp [stitchMember, hci, hl]
      · simp [stitchMember, hci, hl, setField_setField]
  | undef => rfl
  | null => rfl
  | bool b => rfl
  | num n => rfl
  | str s => rfl

theorem deleteMember_ok_cases {c : JValue} {k : String} {d : JValue}
    (h : deleteMember c k = .ok d) :
    (∃ f, c = .obj f ∧ d = .obj (f.filter (fun x => x.1 ≠ k))) ∨
    (d = c ∧ (∀ f, c ≠ .obj f) ∧ c.isNullish = false) := by
  cases c with
  | obj f =>
    simp only [deleteMember, Except.ok.injEq] at h
    exact Or.inl ⟨f, rfl, h.symm⟩
  | str s =>
    simp only [deleteMember] at h
    split at h
    · split at h
      · simp at h
      · simp only [Except.ok.injEq] at h
        exact Or.inr ⟨h.symm, by simp, rfl⟩
    · split at h
      · simp at h
      · simp only [Except.ok.injEq] at h
        exact Or.inr ⟨h.symm, by simp, rfl⟩
  | num n =>
    simp only [deleteMember, Except.ok.injEq] at h
    exact Or.inr ⟨h.symm, by simp, rfl⟩
  | bool b =>
    simp only [deleteMember, Except.ok.injEq] at h
    exact Or.inr ⟨h.symm, by simp, rfl⟩
  | arr e pr =>
    simp only [deleteMember, Except.ok.injEq] at h
    exact Or.inr ⟨h.symm, by simp, rfl⟩
  | null => simp [deleteMember] at h
  | undef => simp [deleteMember] at h

theorem removeParts_some_not_nullish : ∀ {parts : List String} {c c1 : JValue},
    removeParts c parts = .ok (some c1) → c1.isNullish = false
  | [], c, c1, h => by simp [removeParts] at h
  | [last], c, c1, h => by
    unfold removeParts at h
    split at h
    · simp at h
    · rename_i hc
      split at h
      · rename_i e pr
        simp only [Except.ok.injEq, Option.some.injEq] at h
        rw [← h]
        split <;> rfl
      · split at h
        · simp at h
        · rename_i d hdel
          simp only [Except.ok.injEq, Option.some.injEq] at h
          subst h
          rcases deleteMember_ok_cases hdel with ⟨f, rfl, rfl⟩ | ⟨rfl, -, hcn⟩
          · rfl
          · exact hcn
  | p :: q :: rest, c, c1, h => by
    unfold removeParts at h
    split at h
    · simp at h
    · rename_i hc
      split at h
      · simp at h
      · split at h
        · simp at h
        · simp at h
        · rename_i child' hsub
          simp only [Except.ok.injEq, Option.some.injEq] at h
          rw [← h]
          exact stitch_not_nullish p child' (by simpa using hc)

theorem notArrParent_not_arr {c : JValue} {parts : List String} {e : List JValue}
    {pr : List (String × JValue)} (h : notArrParent c parts = true)
    (h2 : removeParentVal c parts = some (.arr e pr)) : False := by
  unfold notArrParent at h
  rw [h2] at h
  simp at h

theorem notArrParent_descend {c : JValue} {p q : String} {rest : List String}
    (hc : c.isNullish = false) (hchild : (getMemberPure c p).isUndef = false)
    (h : notArrParent c (p :: q :: rest) = true) :
    notArrParent (getMemberPure c p) (q :: rest) = true := by
  unfold notArrParent at h ⊢
  rw [show removeParentVal c (p :: q :: rest) =
    removeParentVal (getMemberPure c p) (q :: rest) from by
      simp [removeParentVal, hc, hchild]] at h
  exact h

theorem removeParts_step_second {c1 child' : JValue} {p q : String}
    {rest : List String} (hc1n : c1.isNullish = false)
    (hread : getMemberPure c1 p = child') (hcu : child'.isUndef = false)
    (ih : removeParts child' (q :: rest) = .ok none ∨
      removeParts child' (q :: rest) = .ok (some child'))
    (hstitch : stitchMember c1 p child' = c1) :
    removeParts c1 (p :: q :: rest) = .ok none ∨
      removeParts c1 (p :: q :: rest) = .ok (some c1) := by
  have step2 : removeParts c1 (p :: q :: rest) =
      (match removeParts child' (q :: rest) with
       | .error e => .error e
       | .ok none => .ok none
       | .ok (some x) => .ok (some (stitchMember c1 p x))) := by
    rw [show removeParts c1 (p :: q :: rest) =
      (if c1.isNullish then .ok none
       else if (getMemberPure c1 p).isUndef then .ok none
       else
         match removeParts (getMemberPure c1 p) (q :: rest) with
         | .error e => .error e
         | .ok none => .ok none
         | .ok (some child') => .ok (some (stitchMember c1 p child'))) from rfl]
    rw [hread]
    simp [hc1n, hcu]
  rcases ih with hnone | hsome
  · left
    rw [step2, hnone]
  · right
    rw [step2, hsome]
    show Except.ok (some (stitchMember c1 p child')) = Except.ok (some c1)
    rw [hstitch]

theorem removeParts_idem : ∀ (parts : List String) {c c1 : JValue},
    removeParts c parts = .ok (some c1) → notArrParent c parts = true →
    removeParts c1 parts = .ok none ∨ removeParts c1 parts = .ok (some c1)
  | [], c, c1, h, _ => by simp [removeParts] at h
  | [last], c, c1, h, hpar => by
    have horig := h
    unfold removeParts at h
    split at h
    · simp at h
    · rename_i hc
      split at h
      · rename_i e pr
        exact absurd (show removeParentVal (.arr e pr) [last] = some (.arr e pr) by
          simp [removeParentVal, JValue.isNullish]) (fun hx => notArrParent_not_arr hpar hx)
      · split at h
        · simp at h
        · rename_i d hdel
          simp only [Except.ok.injEq, Option.some.injEq] at h
          subst h
          rcases deleteMember_ok_cases hdel with ⟨f, rfl, rfl⟩ | ⟨rfl, hno, hcn⟩
          · right
            show removeParts (JValue.obj (f.filter (fun x => x.1 ≠ last))) [last] = _
            simp [removeParts, JValue.isNullish, deleteMember, filter_key_idem]
          · right
            exact horig
  | p :: q :: rest, c, c1, h, hpar => by
    have horig := h
    unfold removeParts at h
    split at h
    · simp at h
    · rename_i hc
      split at h
      · simp at h
      · rename_i hchild
        split at h
        · simp at h
        · simp at h
        · rename_i child' hsub
          simp only [Except.ok.injEq, Option.some.injEq] at h
          have hcb : c.isNullish = false := by simpa using hc
          have hchb : (getMemberPure c p).isUndef = false := by simpa using hchild
          have hpar' := notArrParent_descend hcb hchb hpar
          have ih := removeParts_idem (q :: rest) hsub hpar'
          have hcu : child'.isUndef = false :=
            not_undef_of_not_nullish (removeParts_some_not_nullish hsub)
          have hc1n : c1.isNullish = false := by
            rw [← h]
            exact stitch_not_nullish p child' hcb
          cases c with
          | obj f =>
            have hread : getMemberPure c1 p = child' := by
              rw [← h]
              simp [stitchMember, getMemberPure, lookupField_setField_self]
            have hstitch : stitchMember c1 p child' = c1 := by
              rw [← h]
              exact stitch_stitch _ p child'
            exact removeParts_step_second hc1n hread hcu ih hstitch
          | arr e pr =>
            cases hci : canonIndex p with
            | some i =>
              have hi : i < e.length := by
                by_contra hge
                have h0 : getIdx e i = JValue.undef := getIdx_undef_of_ge e i (by omega)
                have hu : getMemberPure (JValue.arr e pr) p = .undef := by
                  simp only [getMemberPure, hci]
                  exact h0
                rw [hu] at hchb
                simp [JValue.isUndef] at hchb
              have hread : getMemberPure c1 p = child' := by
                rw [← h]
                have hst : stitchMember (JValue.arr e pr) p child' =
                    JValue.arr (e.set i child') pr := by
                  simp [stitchMember, hci, hi]
                rw [hst]
                simp only [getMemberPure, hci]
                exact getIdx_set_self e i child' hi
              have hstitch : stitchMember c1 p child' = c1 := by
                rw [← h]
                exact stitch_stitch _ p child'
              exact removeParts_step_second hc1n hread hcu ih hstitch
            | none =>
              by_cases hl : p = "length"
              · -- the child is the length number; descending into the number
                -- either no-ops at the last segment (the stitch leaves the
                -- array unchanged) or early-returns, so the object is
                -- unchanged and a second call repeats the first verbatim
                have hstc : stitchMember (JValue.arr e pr) p child' =
                    JValue.arr e pr := by
                  have hcl : canonIndex "length" = none := by rfl
                  simp [stitchMember, hl, hcl]
                have hc1 : c1 = JValue.arr e pr := h.symm.trans hstc
                subst hc1
                right
                exact horig
              · have hread : getMemberPure c1 p = child' := by
                  rw [← h]
                  simp [stitchMember, getMemberPure, hci, hl,
                    lookupField_setField_self]
                have hstitch : stitchMember c1 p child' = c1 := by
                  rw [← h]
                  exact stitch_stitch _ p child'
                exact removeParts_step_second hc1n hread hcu ih hstitch
          | str s =>
            have hstc : stitchMember (JValue.str s) p child' = JValue.str s := rfl
            have hc1 : c1 = JValue.str s := h.symm.trans hstc
            subst hc1
            right
            exact horig
          | num n => simp [getMemberPure, JValue.isUndef] at hchb
          | bool b => simp [getMemberPure, JValue.isUndef] at hchb
          | null => simp [JValue.isNullish] at hcb
          | undef => simp [JValue.isNullish] at hcb

/-- C3 counterexample: for a sequence parent with a numeric final segment,
`removeProp` is *not* idempotent — the second call splices again, removing
the next element: on `[1,2,3]` at `a`, removing `a.0` once leaves `[2,3]`,
and removing it again leaves `[3]`. -/
theorem remove_sequence_not_idempotent :
    removeProp dcfg (.obj [("a", .arr [.num 1, .num 2, .num 3] [])]) "a.0" =
      .ok (.obj [("a", .arr [.num 2, .num 3] [])]) ∧
    removeProp dcfg (.obj [("a", .arr [.num 2, .num 3] [])]) "a.0" =
      .ok (.obj [("a", .arr [.num 3] [])]) ∧
    (JValue.obj [("a", .arr [.num 2, .num 3] [])]) ≠
      (.obj [("a", .arr [.num 3] [])]) :=
  ⟨rfl, rfl, by decide⟩

/-- C3 amended: `removeProp` applied twice yields the same final state as
applied once, provided the parent of the final segment is not a sequence
(mapping parents delete a key, which is absent on the second call; missing
intermediates early-return unchanged; a nullish container is a no-op).  For
a sequence parent the second call splices out the following element, so the
claim's "including a sequence parent" quantification fails. -/
theorem remove_idempotent_mapping_parent (cfg : PropsConfig) (c : JValue)
    (p : String) (c1 : JValue) (ht : cfg.removeTransformers = [])
    (hpar : notArrParent c (jsSplit '.' p) = true)
    (h : removeProp cfg c p = .ok c1) :
    removeProp cfg c1 p = .ok c1 := by
  unfold removeProp at h ⊢
  simp only [ht, applyTransformersFn, List.foldl_nil] at h ⊢
  split at h
  · rename_i hnull
    simp only [Except.ok.injEq] at h
    subst h
    rw [if_pos hnull]
  · rename_i hnn
    split at h
    · simp at h
    · rename_i u hvi
      split at h
      · simp at h
      · rename_i u2 hvs
        obtain ⟨-, htrim, hsec⟩ := validateInput_ok_parts hvi
        split at h
        · simp at h
        · rename_i hrp
          simp only [Except.ok.injEq] at h
          subst h
          rw [if_neg hnn]
          rw [validateInput_not_null (by simpa using hnn) htrim, hsec, hrp]
        · rename_i c1' hrp
          simp only [Except.ok.injEq] at h
          subst h
          have hc1n := removeParts_some_not_nullish hrp
          have hidem := removeParts_idem (jsSplit '.' p) hrp hpar
          rw [if_neg (by simp [hc1n])]
          rw [validateInput_not_null hc1n htrim, hsec]
          rcases hidem with h1 | h1 <;> rw [h1]

/-- C3 witness. -/
theorem remove_idempotent_mapping_parent_witness :
    removeProp dcfg (.obj [("a", .obj [])]) "a.b" = .ok (.obj [("a", .obj [])]) :=
  remove_idempotent_mapping_parent dcfg (.obj [("a", .obj [("b", .num 1)])])
    "a.b" (.obj [("a", .obj [])]) rfl (by decide) rfl


/-! ### No-throw behaviour on merely-missing data (C4) -/

theorem container_not_nullish {c : JValue} (h : isContainerB c = true) :
    c.isNullish = false := by
  cases c <;> simp_all [isContainerB, JValue.isNullish]

theorem undef_of_isUndef {x : JValue} (h : x.isUndef = true) : x = .undef := by
  cases x <;> simp_all [JValue.isUndef]

theorem hasMember_ok_of_container {c : JValue} (k : String)
    (h : isContainerB c = true) : ∃ b, hasMember c k = .ok b := by
  cases c <;> simp_all [isContainerB, hasMember]

theorem setMember_ok_of_container {c : JValue} (k : String) (v : JValue)
    (h : isContainerB c = true) (hk : k ≠ "length") :
    ∃ c', setMember c k v = .ok c' := by
  cases c with
  | obj f => exact ⟨_, rfl⟩
  | arr e pr =>
    cases hci : canonIndex k with
    | some i => exact ⟨.arr (listSetPad e i v) pr, by simp [setMember, hci]⟩
    | none => exact ⟨.arr e (setField pr k v), by simp [setMember, hci, hk]⟩
  | undef => simp [isContainerB] at h
  | null => simp [isContainerB] at h
  | bool b => simp [isContainerB] at h
  | num n => simp [isContainerB] at h
  | str s => simp [isContainerB] at h

theorem hasParts_cons_eq {c : JValue} {p : String} {rest : List String}
    (hnn : c.isNullish = false) :
    hasParts c (p :: rest) =
      (match hasMember c p with
       | .error e => .error e
       | .ok b => if b then hasParts (getMemberPure c p) rest else .ok false) := by
  simp [hasParts, hnn]

theorem hasParts_ok_of_goodWalk : ∀ (parts : List String) (c : JValue),
    goodWalkB c parts = true → ∃ b, hasParts c parts = .ok b
  | [], c, _ => ⟨true, rfl⟩
  | [last], c, hgw => by
    have hnn := container_not_nullish (by simpa [goodWalkB] using hgw)
    obtain ⟨b, hb⟩ := hasMember_ok_of_container last
      (by simpa [goodWalkB] using hgw)
    cases b
    · exact ⟨false, by rw [hasParts_cons_eq hnn, hb]; rfl⟩
    · exact ⟨true, by rw [hasParts_cons_eq hnn, hb]; rfl⟩
  | p :: q :: rest, c, hgw => by
    have hgw' := hgw
    simp only [goodWalkB, Bool.and_eq_true, Bool.or_eq_true] at hgw'
    have hnn := container_not_nullish hgw'.1
    obtain ⟨b, hb⟩ := hasMember_ok_of_container p hgw'.1
    cases b
    · exact ⟨false, by rw [hasParts_cons_eq hnn, hb]; rfl⟩
    · by_cases hcu : (getMemberPure c p).isUndef = true
      · have hu := undef_of_isUndef hcu
        refine ⟨false, ?_⟩
        rw [hasParts_cons_eq hnn, hb, hu]
        rfl
      · have hgwc : goodWalkB (getMemberPure c p) (q :: rest) = true := by
          rcases hgw'.2 with h2 | h2
          · exact absurd h2 hcu
          · exact h2
        obtain ⟨b', hb'⟩ := hasParts_ok_of_goodWalk (q :: rest) (getMemberPure c p) hgwc
        refine ⟨b', ?_⟩
        rw [hasParts_cons_eq hnn, hb]
        show hasParts (getMemberPure c p) (q :: rest) = Except.ok b'
        exact hb'

theorem setParts_fresh_ok : ∀ (rest : List String) (v : JValue), rest ≠ [] →
    ∃ sub, setParts (.obj []) rest v = .ok sub
  | [], _, hne => absurd rfl hne
  | [last], v, _ => ⟨_, rfl⟩
  | p :: q :: rest, v, _ => by
    obtain ⟨sub, hsub⟩ := setParts_fresh_ok (q :: rest) v (by simp)
    exact ⟨.obj (setField [] p sub), by
      rw [show setParts (JValue.obj []) (p :: q :: rest) v =
        (match setParts (JValue.obj []) (q :: rest) v with
         | .error e => .error e
         | .ok sub => setMember (.obj []) p sub) from rfl, hsub]
      rfl⟩

theorem setParts_ok_of_goodWalk : ∀ (parts : List String) (c v : JValue),
    goodWalkB c parts = true → "length" ∉ parts →
    ∃ c', setParts c parts v = .ok c'
  | [], _, _, _, _ => ⟨_, rfl⟩
  | [last], c, v, hgw, hlen =>
    setMember_ok_of_container last v (by simpa [goodWalkB] using hgw)
      (fun e => hlen (by simp [e]))
  | p :: q :: rest, c, v, hgw, hlen => by
    have hgw' := hgw
    simp only [goodWalkB, Bool.and_eq_true, Bool.or_eq_true] at hgw'
    have hnn := container_not_nullish hgw'.1
    have hp : p ≠ "length" := fun e => hlen (by simp [e])
    have hlen' : "length" ∉ q :: rest := fun hm => hlen (List.mem_cons_of_mem _ hm)
    have hsub : ∃ sub, setParts (if (getMemberPure c p).isUndef then .obj []
        else getMemberPure c p) (q :: rest) v = .ok sub := by
      by_cases hcu : (getMemberPure c p).isUndef = true
      · rw [if_pos hcu]
        exact setParts_fresh_ok (q :: rest) v (by simp)
      · rw [if_neg hcu]
        have hgwc : goodWalkB (getMemberPure c p) (q :: rest) = true := by
          rcases hgw'.2 with h2 | h2
          · exact absurd h2 hcu
          · exact h2
        exact setParts_ok_of_goodWalk (q :: rest) (getMemberPure c p) v hgwc hlen'
    obtain ⟨sub, hsub⟩ := hsub
    obtain ⟨c', hc'⟩ := setMember_ok_of_container (c := c) p sub hgw'.1 hp
    refine ⟨c', ?_⟩
    simp only [setParts, hnn, Bool.false_eq_true, if_false, hsub]
    exact hc'

theorem removeParts_ok_of_goodWalk : ∀ (parts : List String) (c : JValue),
    goodWalkB c parts = true → ∃ r, removeParts c parts = .ok r
  | [], _, _ => ⟨none, rfl⟩
  | [last], c, hgw => by
    have hcont : isContainerB c = true := by simpa [goodWalkB] using hgw
    cases c with
    | obj f => exact ⟨_, rfl⟩
    | arr e pr => exact ⟨_, rfl⟩
    | undef => simp [isContainerB] at hcont
    | null => simp [isContainerB] at hcont
    | bool b => simp [isContainerB] at hcont
    | num n => simp [isContainerB] at hcont
    | str s => simp [isContainerB] at hcont
  | p :: q :: rest, c, hgw => by
    have hgw' := hgw
    simp only [goodWalkB, Bool.and_eq_true, Bool.or_eq_true] at hgw'
    have hnn := container_not_nullish hgw'.1
    by_cases hcu : (getMemberPure c p).isUndef = true
    · exact ⟨none, by simp [removeParts, hnn, hcu]⟩
    · have hgwc : goodWalkB (getMemberPure c p) (q :: rest) = true := by
        rcases hgw'.2 with h2 | h2
        · exact absurd h2 hcu
        · exact h2
      obtain ⟨r, hr⟩ := removeParts_ok_of_goodWalk (q :: rest) (getMemberPure c p) hgwc
      cases r with
      | none => exact ⟨none, by simp [removeParts, hnn, hcu, hr]⟩
      | some child' =>
        exact ⟨some (stitchMember c p child'), by simp [removeParts, hnn, hcu, hr]⟩

theorem removeParts_none_of_parent_none : ∀ (parts : List String) (c : JValue),
    removeParentVal c parts = none → removeParts c parts = .ok none
  | [], c, h => by simp [removeParentVal] at h
  | [last], c, h => by
    unfold removeParentVal at h
    split at h
    · unfold removeParts
      rw [if_pos (by assumption)]
    · simp at h
  | p :: q :: rest, c, h => by
    unfold removeParentVal at h
    split at h
    · unfold removeParts
      rw [if_pos (by assumption)]
    · split at h
      · rename_i hnn hcu
        unfold removeParts
        rw [if_neg hnn, if_pos hcu]
      · rename_i hnn hcu
        have ih := removeParts_none_of_parent_none (q :: rest) (getMemberPure c p) h
        unfold removeParts
        rw [if_neg hnn, if_neg hcu, ih]

/-- C4 amended: when the data along a valid, security-safe path is merely
missing — every traversed value is a mapping/sequence container until a
member is `undefined` (absent) — none of the four operations throws:
`getProp` resolves (and resolves to the fallback whenever resolution
reached no defined value), `hasProp` returns a boolean, `setProp` succeeds
for every value (creating the `undefined` intermediates), and `removeProp`
succeeds, returning the container unchanged when an intermediate is
missing.  The claim as stated is false: a *scalar* intermediate makes
`hasProp` throw (`in` on a primitive) and a `null` or scalar intermediate
makes `setProp` throw (strict-mode write to a non-object); only `getProp`
and `removeProp` are throw-free there. -/
theorem missing_data_safe_ops (cfg : PropsConfig) (c : JValue) (p : String)
    (d v : JValue) (hc : c.isNullish = false) (hp : jsTrim p ≠ "")
    (hs : validateSecurityTerms p = .ok ())
    (hrt : cfg.removeTransformers = [])
    (hgw : goodWalkB c (jsSplit '.' p) = true)
    (hlen : "length" ∉ jsSplit '.' p) :
    (∃ r, getProp cfg c p d = .ok r) ∧
    (∃ b, hasProp cfg c p = .ok b) ∧
    (∃ c', setProp cfg c p v = .ok c') ∧
    (∃ c'', removeProp cfg c p = .ok c'') ∧
    (getOptQ c (jsSplit '.' p) = none →
      getProp cfg c p d = .ok (if d.isNullish then cfg.fallback else d)) ∧
    (removeParentVal c (jsSplit '.' p) = none → removeProp cfg c p = .ok c) := by
  have hvi : validateInput c p = validateSecurityTerms p :=
    validateInput_not_null hc hp
  refine ⟨?_, ?_, ?_, ?_, ?_, ?_⟩
  · rw [getProp_of_ok_validation d hc hp hs]
    cases hm : getPartsRaw c (jsSplit '.' p) with
    | none => exact ⟨if d.isNullish then cfg.fallback else d, rfl⟩
    | some w =>
      by_cases hw : w.isUndef = true
      · exact ⟨if d.isNullish then cfg.fallback else d, by simp [hw]⟩
      · exact ⟨applyTransformersFn cfg.getTransformers p w, by simp [hw]⟩
  · obtain ⟨b, hb⟩ := hasParts_ok_of_goodWalk (jsSplit '.' p) c hgw
    exact ⟨b, by rw [hasProp_of_ok_validation hc hp hs]; exact hb⟩
  · obtain ⟨c', hc'⟩ := setParts_ok_of_goodWalk (jsSplit '.' p) c
      (applyTransformersFn cfg.setTransformers p v) hgw hlen
    refine ⟨c', ?_⟩
    unfold setProp
    rw [hvi, hs]
    exact hc'
  · obtain ⟨r, hr⟩ := removeParts_ok_of_goodWalk (jsSplit '.' p) c hgw
    unfold removeProp
    rw [if_neg (by simp [hc]), hvi, hs, hrt]
    have htr : applyTransformersFn [] p c = c := rfl
    rw [htr, hr]
    cases r with
    | none => exact ⟨c, rfl⟩
    | some c'' => exact ⟨c'', rfl⟩
  · intro hmiss
    rw [getProp_of_ok_validation d hc hp hs]
    unfold getOptQ at hmiss
    cases hm : getPartsRaw c (jsSplit '.' p) with
    | none => rfl
    | some w =>
      rw [hm] at hmiss
      by_cases hw : w.isUndef = true
      · simp [hw]
      · exfalso
        simp [hw] at hmiss
  · intro hpar
    have hnone := removeParts_none_of_parent_none (jsSplit '.' p) c hpar
    unfold removeProp
    rw [if_neg (by simp [hc]), hvi, hs, hrt]
    have htr : applyTransformersFn [] p c = c := rfl
    rw [htr, hnone]

/-- C4 witness. -/
theorem missing_data_safe_ops_witness :
    (∃ r, getProp dcfg (.obj [("a", .obj [])]) "a.b.c" .undef = .ok r) ∧
    (∃ b, hasProp dcfg (.obj [("a", .obj [])]) "a.b.c" = .ok b) ∧
    (∃ c', setProp dcfg (.obj [("a", .obj [])]) "a.b.c" (.num 1) = .ok c') ∧
    (∃ c'', removeProp dcfg (.obj [("a", .obj [])]) "a.b.c" = .ok c'') ∧
    (getOptQ (.obj [("a", .obj [])]) (jsSplit '.' "a.b.c") = none →
      getProp dcfg (.obj [("a", .obj [])]) "a.b.c" .undef =
        .ok (if (JValue.undef).isNullish then dcfg.fallback else .undef)) ∧
    (removeParentVal (.obj [("a", .obj [])]) (jsSplit '.' "a.b.c") = none →
      removeProp dcfg (.obj [("a", .obj [])]) "a.b.c" = .ok (.obj [("a", .obj [])])) :=
  missing_data_safe_ops dcfg (.obj [("a", .obj [])]) "a.b.c" .undef (.num 1)
    rfl (by decide) rfl rfl (by rfl) (by decide)


/-! ### Frame property of `setProp` (C10) -/

theorem setMember_src_not_nullish {c : JValue} {k : String} {v c' : JValue}
    (h : setMember c k v = .ok c') : c.isNullish = false := by
  rcases setMember_ok_cases h with ⟨f, rfl, -⟩ | ⟨e, p, i, rfl, -, -⟩ |
    ⟨e, p, n, rfl, -, -, -, -, -⟩ | ⟨e, p, rfl, -, -, -⟩ <;> rfl

theorem getOptQ_cons {c : JValue} {k : String} {rest : List String}
    (h : c.isNullish = false) :
    getOptQ c (k :: rest) = getOptQ (getMemberPure c k) rest := by
  unfold getOptQ
  rw [getPartsRaw_cons_not_nullish h]

theorem getOptQ_undef : ∀ qq : List String, getOptQ .undef qq = none
  | [] => rfl
  | _ :: _ => rfl

/-- Reading any path through a freshly created intermediate chain that
diverges from the written path resolves to nothing. -/
theorem fresh_frame : ∀ (pp : List String) {qq : List String} {v sub : JValue},
    setParts (.obj []) pp v = .ok sub →
    pp.isPrefixOf qq = false → qq.isPrefixOf pp = false →
    getOptQ sub qq = none
  | [], qq, v, sub, _, hnp, _ => by simp [List.isPrefixOf] at hnp
  | [l], qq, v, sub, h, hnp, hnq => by
    have hsub : sub = .obj [(l, v)] := by
      have h2 : (Except.ok (JValue.obj [(l, v)]) : Except PfError JValue) = .ok sub := h
      exact ((Except.ok.injEq _ _).mp h2).symm
    subst hsub
    cases qq with
    | nil => simp [List.isPrefixOf] at hnq
    | cons q0 qrest =>
      by_cases hq0 : q0 = l
      · subst hq0
        simp [List.isPrefixOf] at hnp
      · rw [getOptQ_cons (by rfl)]
        have hm : getMemberPure (JValue.obj [(l, v)]) q0 = .undef := by
          simp [getMemberPure, lookupField, Ne.symm hq0]
        rw [hm, getOptQ_undef]
  | p0 :: p1 :: prest, qq, v, sub, h, hnp, hnq => by
    rw [show setParts (JValue.obj []) (p0 :: p1 :: prest) v =
      (match setParts (JValue.obj []) (p1 :: prest) v with
       | .error e => .error e
       | .ok s => setMember (.obj []) p0 s) from rfl] at h
    cases hsub : setParts (JValue.obj []) (p1 :: prest) v with
    | error e => rw [hsub] at h; simp at h
    | ok s =>
      rw [hsub] at h
      have hsub2 : sub = .obj [(p0, s)] := by
        have h2 : (Except.ok (JValue.obj [(p0, s)]) : Except PfError JValue) = .ok sub := h
        exact ((Except.ok.injEq _ _).mp h2).symm
      subst hsub2
      cases qq with
      | nil => simp [List.isPrefixOf] at hnq
      | cons q0 qrest =>
        by_cases hq0 : q0 = p0
        · subst hq0
          simp only [List.isPrefixOf, beq_self_eq_true, Bool.true_and] at hnp hnq
          cases qrest with
          | nil => simp [List.isPrefixOf] at hnq
          | cons q1 qrest' =>
            rw [getOptQ_cons (by rfl)]
            have hm : getMemberPure (JValue.obj [(q0, s)]) q0 = s := by
              simp [getMemberPure, lookupField]
            rw [hm]
            exact fresh_frame (p1 :: prest) hsub hnp hnq
        · rw [getOptQ_cons (by rfl)]
          have hm : getMemberPure (JValue.obj [(p0, s)]) q0 = .undef := by
            simp [getMemberPure, lookupField, Ne.symm hq0]
          rw [hm, getOptQ_undef]

/-- Core frame property: a successful write along `pp` leaves the resolved
value of every path `qq` that is prefix-incomparable with `pp` unchanged
(up to the fallback normalisation), provided neither path addresses a
sequence `length`. -/
theorem frame_core : ∀ (pp : List String) {qq : List String} {c v c' : JValue},
    setParts c pp v = .ok c' →
    pp.isPrefixOf qq = false → qq.isPrefixOf pp = false →
    "length" ∉ pp → "length" ∉ qq →
    getOptQ c' qq = getOptQ c qq
  | [], qq, c, v, c', _, hnp, _, _, _ => by simp [List.isPrefixOf] at hnp
  | [last], qq, c, v, c', h, hnp, hnq, hlp, hlq => by
    have h' : setMember c last v = .ok c' := h
    have hc := setMember_src_not_nullish h'
    have hc' := setMember_not_nullish h'
    cases qq with
    | nil => simp [List.isPrefixOf] at hnq
    | cons q0 qrest =>
      by_cases hq0 : q0 = last
      · subst hq0
        simp [List.isPrefixOf] at hnp
      · have hmem : getMemberPure c' q0 = getMemberPure c q0 :=
          setMember_get_ne h' hq0 (fun e => hlp (by simp [e]))
            (fun e => hlq (by simp [e]))
        rw [getOptQ_cons hc', getOptQ_cons hc, hmem]
  | p0 :: p1 :: prest, qq, c, v, c', h, hnp, hnq, hlp, hlq => by
    have hp0 : p0 ≠ "length" := fun e => hlp (by simp [e])
    unfold setParts at h
    split at h
    · simp at h
    · rename_i hcn
      split at h
      · simp at h
      · rename_i sub hsub
        have hc : c.isNullish = false := by simpa using hcn
        have hc' := setMember_not_nullish h
        cases qq with
        | nil => simp [List.isPrefixOf] at hnq
        | cons q0 qrest =>
          have hq0len : q0 ≠ "length" := fun e => hlq (by simp [e])
          by_cases hq0 : q0 = p0
          · subst hq0
            simp only [List.isPrefixOf, beq_self_eq_true, Bool.true_and] at hnp hnq
            cases qrest with
            | nil => simp [List.isPrefixOf] at hnq
            | cons q1 qrest' =>
              rw [getOptQ_cons hc', getOptQ_cons hc, setMember_get h hp0]
              have hlp' : "length" ∉ p1 :: prest :=
                fun hm => hlp (List.mem_cons_of_mem _ hm)
              have hlq' : "length" ∉ q1 :: qrest' :=
                fun hm => hlq (List.mem_cons_of_mem _ hm)
              by_cases hcu : (getMemberPure c q0).isUndef = true
              · rw [undef_of_isUndef hcu, getOptQ_undef]
                rw [if_pos hcu] at hsub
                exact fresh_frame (p1 :: prest) hsub hnp hnq
              · rw [if_neg hcu] at hsub
                exact frame_core (p1 :: prest) hsub hnp hnq hlp' hlq'
          · have hmem : getMemberPure c' q0 = getMemberPure c q0 :=
              setMember_get_ne h hq0 hp0 hq0len
            rw [getOptQ_cons hc', getOptQ_cons hc, hmem]

/-- C10 counterexample: `setProp` can change the value `getProp` reports at
a path that is prefix-incomparable with the written one — extending a
sequence changes its `length` property: writing index 1 of a one-element
sequence at `a` changes `getProp(c, "a.length")` from 1 to 2, although
neither of `"a.1"` and `"a.length"` is a prefix of the other. -/
theorem setProp_changes_sequence_length_ce :
    getProp dcfg (.obj [("a", .arr [.num 1] [])]) "a.length" .undef = .ok (.num 1) ∧
    setProp dcfg (.obj [("a", .arr [.num 1] [])]) "a.1" (.num 2) =
      .ok (.obj [("a", .arr [.num 1, .num 2] [])]) ∧
    getProp dcfg (.obj [("a", .arr [.num 1, .num 2] [])]) "a.length" .undef =
      .ok (.num 2) ∧
    (jsSplit '.' "a.1").isPrefixOf (jsSplit '.' "a.length") = false ∧
    (jsSplit '.' "a.length").isPrefixOf (jsSplit '.' "a.1") = false ∧
    (JValue.num 1) ≠ (.num 2) :=
  ⟨rfl, rfl, rfl, by decide, by decide, by decide⟩

/-- C10 amended: a successful `setProp` changes only entries along the
written path and the `length` of sequences it touches: for every other
path `q` — neither a prefix of `p` nor extended by it — that does not read
a `length` property (and with `p` not writing one), `getProp` returns the
same value before and after the call, under any configuration and
call-site default. -/
theorem setProp_frame (cfg : PropsConfig) (c : JValue) (p q : String)
    (v c' d : JValue) (h : setProp cfg c p v = .ok c')
    (hnp : (jsSplit '.' p).isPrefixOf (jsSplit '.' q) = false)
    (hnq : (jsSplit '.' q).isPrefixOf (jsSplit '.' p) = false)
    (hlp : "length" ∉ jsSplit '.' p) (hlq : "length" ∉ jsSplit '.' q) :
    getProp cfg c' q d = getProp cfg c q d := by
  obtain ⟨⟨u, hvi⟩, hvs, hsp⟩ := setProp_ok_inversion h
  obtain ⟨hc, -, -⟩ := validateInput_ok_parts hvi
  have hc' := setParts_not_nullish hsp (jsSplit_ne_nil _ _)
  have hopt := frame_core (jsSplit '.' p) hsp hnp hnq hlp hlq
  by_cases hq : jsTrim q = ""
  · have e1 : getProp cfg c' q d = .error .invalidPath := by
      unfold getProp
      rw [validateInput_empty hc' hq]
    have e2 : getProp cfg c q d = .error .invalidPath := by
      unfold getProp
      rw [validateInput_empty hc hq]
    rw [e1, e2]
  · cases hvq : validateSecurityTerms q with
    | error e =>
      rw [getProp_error_of_security hc' hq hvq, getProp_error_of_security hc hq hvq]
    | ok u2 =>
      have hvq' : validateSecurityTerms q = .ok () := by rw [hvq]
      rw [getProp_of_ok_validation d hc' hq hvq',
        getProp_of_ok_validation d hc hq hvq']
      unfold getOptQ at hopt
      cases hm' : getPartsRaw c' (jsSplit '.' q) with
      | none =>
        cases hm : getPartsRaw c (jsSplit '.' q) with
        | none => rfl
        | some w =>
          rw [hm', hm] at hopt
          by_cases hw : w.isUndef = true
          · simp [hw]
          · simp [hw] at hopt
      | some w' =>
        cases hm : getPartsRaw c (jsSplit '.' q) with
        | none =>
          rw [hm', hm] at hopt
          by_cases hw' : w'.isUndef = true
          · simp [hw']
          · simp [hw'] at hopt
        | some w =>
          rw [hm', hm] at hopt
          by_cases hw' : w'.isUndef = true <;> by_cases hw : w.isUndef = true
          · simp [hw', hw]
          · simp [hw', hw] at hopt
          · simp [hw', hw] at hopt
          · simp only [if_neg hw', if_neg hw, Option.some.injEq] at hopt
            simp [hw', hw, hopt]

/-- C10 witness. -/
theorem setProp_frame_witness :
    getProp dcfg (.obj [("x", .num 9), ("y", .num 6)]) "y" .undef =
      getProp dcfg (.obj [("x", .num 5), ("y", .num 6)]) "y" .undef :=
  setProp_frame dcfg (.obj [("x", .num 5), ("y", .num 6)]) "x" "y" (.num 9)
    (.obj [("x", .num 9), ("y", .num 6)]) .undef rfl (by decide) (by decide)
    (by decide) (by decide)

end PropForge
